import Mathlib

/-!
Shallow embedding of the legate.core operation pipeline
(src/legate/core/solver.py, runtime.py, operation.py) together with proofs
about it.  Stores, matrices, task ids, regions and other engine handles are
represented by natural numbers; Python dicts become association lists or
explicit functions; Python sets become finite sets; code that can raise an
exception returns Except or Option.
-/

/-! ### EqClass (solver.py) -/

/-- State of `EqClass`.  Stores are natural numbers.  The dict `_class_ids`
maps a store to its class id, `_classes` maps a class id to a set of stores;
an absent key is `none` respectively the empty set (the empty-set default is
never read on the states reachable through `record`). -/
structure EqClassState where
  class_ids : Nat → Option Nat
  next_class_id : Nat
  classes : Nat → Finset Nat

def EqClassState.init : EqClassState :=
  { class_ids := fun _ => none, next_class_id := 0, classes := fun _ => ∅ }

/-- Embeds `EqClass._add`.  The source line `self._next_class_id + 1` is an
expression statement with no assignment, so `next_class_id` stays unchanged,
exactly as in the code. -/
def EqClassState.add (st : EqClassState) (store1 store2 : Nat) : EqClassState :=
  let cls : Finset Nat := {store1, store2}
  let cls_id := st.next_class_id
  { st with
    classes := fun i => if i = cls_id then cls else st.classes i,
    class_ids := fun s => if s = store1 ∨ s = store2 then some cls_id else st.class_ids s }

/-- Embeds `EqClass._update` (store1 is present; its class gains store2). -/
def EqClassState.update (st : EqClassState) (store1 store2 : Nat) : EqClassState :=
  match st.class_ids store1 with
  | none => st
  | some cls_id =>
      let cls := st.classes cls_id
      { st with
        classes := fun i => if i = cls_id then insert store2 cls else st.classes i,
        class_ids := fun s => if s = store2 then some cls_id else st.class_ids s }

/-- Embeds `EqClass._merge`.  Unreachable from `record` (the dispatch there
tests `elif found1` before the final `else`), embedded for completeness. -/
def EqClassState.merge (st : EqClassState) (store1 store2 : Nat) : EqClassState :=
  match st.class_ids store1, st.class_ids store2 with
  | some cls_id1, some cls_id2 =>
      let cls := st.classes cls_id1 ∪ st.classes cls_id2
      { st with
        classes := fun i => if i = cls_id1 ∨ i = cls_id2 then cls else st.classes i }
  | _, _ => st

/-- Embeds `EqClass.record`. -/
def EqClassState.record (st : EqClassState) (store1 store2 : Nat) : EqClassState :=
  let found1 := (st.class_ids store1).isSome
  let found2 := (st.class_ids store2).isSome
  if ¬found1 ∧ ¬found2 then st.add store1 store2
  else if found1 then st.update store1 store2
  else if found2 then st.update store2 store1
  else st.merge store1 store2

/-- Embeds `EqClass.find`. -/
def EqClassState.find (st : EqClassState) (store : Nat) : Finset Nat :=
  match st.class_ids store with
  | none => {store}
  | some cls_id => st.classes cls_id

/-- C1: the class-id counter is never advanced (`self._next_class_id + 1` has
no assignment), so the `_add` performed by `record(3,4)` overwrites class 0,
which `find 1` still points at.  After `record(1,2); record(3,4)` the call
`find 1` returns `{3, 4}`: it contains neither 1 nor 2, contradicting the
claimed invariant that `find(a)` keeps containing `a` and `b` for every pair
recorded by an earlier call. -/
theorem C1_eqclass_record_find_bug :
    EqClassState.find ((EqClassState.init.record 1 2).record 3 4) 1 = ({3, 4} : Finset Nat) ∧
    1 ∉ EqClassState.find ((EqClassState.init.record 1 2).record 3 4) 1 ∧
    2 ∉ EqClassState.find ((EqClassState.init.record 1 2).record 3 4) 1 := by
  refine ⟨?_, ?_, ?_⟩ <;> decide

/-! ### supress_small_fusions (runtime.py, FusionChecker) -/

/-- Python `range(a, b)` over mathematical integers. -/
def intRange (a b : Int) : List Int :=
  (List.range (b - a).toNat).map fun i => a + i

/-- Loop body of `FusionChecker.supress_small_fusions`: one interval is
either kept (length at least the threshold, setting `fusable`) or replaced by
its unit-length singletons. -/
def supressStep (threshold : Int) (acc : Bool × List (Int × Int))
    (interval : Int × Int) : Bool × List (Int × Int) :=
  if threshold ≤ interval.2 - interval.1 then (true, acc.2 ++ [interval])
  else (acc.1, acc.2 ++ (intRange interval.1 interval.2).map fun i => (i, i + 1))

/-- Embeds `FusionChecker.supress_small_fusions` (the loop over `intervals`
carrying `(fusable, final_set)`). -/
def supress_small_fusions (intervals : List (Int × Int)) (threshold : Int) :
    Bool × List (Int × Int) :=
  intervals.foldl (supressStep threshold) (false, [])

/-- Declarative per-interval expansion used to characterise the loop. -/
def expandSmall (threshold : Int) (p : Int × Int) : List (Int × Int) :=
  if threshold ≤ p.2 - p.1 then [p]
  else (intRange p.1 p.2).map fun i => (i, i + 1)

lemma supress_foldl_spec (threshold : Int) (intervals : List (Int × Int)) :
    ∀ (b : Bool) (acc : List (Int × Int)),
      intervals.foldl (supressStep threshold) (b, acc) =
        (b || intervals.any fun p => decide (threshold ≤ p.2 - p.1),
         acc ++ intervals.flatMap (expandSmall threshold)) := by
  induction intervals with
  | nil => intro b acc; simp
  | cons p rest ih =>
      intro b acc
      by_cases h : threshold ≤ p.2 - p.1
      · simp [supressStep, expandSmall, h, ih, List.append_assoc]
      · simp [supressStep, expandSmall, h, ih, List.append_assoc]

lemma supress_small_fusions_spec (intervals : List (Int × Int)) (threshold : Int) :
    supress_small_fusions intervals threshold =
      (intervals.any fun p => decide (threshold ≤ p.2 - p.1),
       intervals.flatMap (expandSmall threshold)) := by
  simpa [supress_small_fusions] using supress_foldl_spec threshold intervals false []

/-- C6: the returned interval list keeps every input interval whose length
meets the threshold unchanged, replaces every shorter interval by its
unit-length singletons in order (that is exactly `expandSmall`), and the
`fusable` flag is true iff at least one input interval meets the
threshold. -/
theorem C6_supress_small_fusions (intervals : List (Int × Int)) (threshold : Int) :
    (supress_small_fusions intervals threshold).2 =
        intervals.flatMap (expandSmall threshold) ∧
    ((supress_small_fusions intervals threshold).1 = true ↔
        ∃ p ∈ intervals, threshold ≤ p.2 - p.1) := by
  rw [supress_small_fusions_spec]
  refine ⟨rfl, ?_⟩
  simp [List.any_eq_true]

/-! ### Operation (operation.py) -/

/-- The attributes of a store that `Operation` reads: an identity and the
`scalar` flag. -/
structure Store where
  sid : Nat
  scalar : Bool
deriving DecidableEq

/-- The per-operation containers populated by the `add_*` methods of
`Operation`. -/
structure OpState where
  no_accesses : List Store
  inputs : List Store
  outputs : List Store
  reductions : List (Store × Nat)
  scalar_output : Option Store
  scalar_reduction : Option (Store × Nat)
deriving DecidableEq

def OpState.init : OpState := ⟨[], [], [], [], none, none⟩

/-- Embeds the `_has_scalar_output` property. -/
def OpState.has_scalar_output (op : OpState) : Bool :=
  op.scalar_reduction.isSome || op.scalar_output.isSome

/-- Embeds `Operation.add_no_access`. -/
def OpState.add_no_access (op : OpState) (store : Store) : OpState :=
  { op with no_accesses := op.no_accesses ++ [store] }

/-- Embeds `Operation.add_input`. -/
def OpState.add_input (op : OpState) (store : Store) : OpState :=
  { op with inputs := op.inputs ++ [store] }

/-- Embeds `Operation.add_output`; the raised `ValueError` (through
`_check_scalar_output`) becomes `Except.error`. -/
def OpState.add_output (op : OpState) (store : Store) : Except String OpState :=
  if store.scalar then
    if op.has_scalar_output then
      Except.error "Only one scalar store can be used for output"
    else Except.ok { op with scalar_output := some store }
  else Except.ok { op with outputs := op.outputs ++ [store] }

/-- Embeds `Operation.add_reduction`. -/
def OpState.add_reduction (op : OpState) (store : Store) (redop : Nat) :
    Except String OpState :=
  if store.scalar then
    if op.has_scalar_output then
      Except.error "Only one scalar store can be used for output"
    else Except.ok { op with scalar_reduction := some (store, redop) }
  else Except.ok { op with reductions := op.reductions ++ [(store, redop)] }

/-- Embeds `Operation.get_all_stores` (a Python set union of the four
containers). -/
def OpState.get_all_stores (op : OpState) : Finset Store :=
  op.no_accesses.toFinset ∪ op.inputs.toFinset ∪ op.outputs.toFinset ∪
    (op.reductions.map Prod.fst).toFinset

/-- One call against an `Operation`, used to describe the reachable
states. -/
inductive OpCall where
  | noAccess (s : Store)
  | input (s : Store)
  | output (s : Store)
  | reduction (s : Store) (r : Nat)
deriving DecidableEq

/-- Applies one call; a raised error propagates to the caller and leaves the
operation unchanged (in the source the raise happens before any mutation). -/
def applyCall (op : OpState) : OpCall → OpState
  | OpCall.noAccess s => op.add_no_access s
  | OpCall.input s => op.add_input s
  | OpCall.output s =>
      match op.add_output s with
      | Except.ok op2 => op2
      | Except.error _ => op
  | OpCall.reduction s r =>
      match op.add_reduction s r with
      | Except.ok op2 => op2
      | Except.error _ => op

def runCalls (calls : List OpCall) : OpState :=
  calls.foldl applyCall OpState.init

lemma has_scalar_output_eq_false {op : OpState}
    (hh : op.has_scalar_output = false) :
    op.scalar_reduction = none ∧ op.scalar_output = none := by
  cases hr : op.scalar_reduction <;> cases ho : op.scalar_output <;>
    simp_all [OpState.has_scalar_output]

lemma applyCall_at_most_one (op : OpState) (c : OpCall)
    (h : ¬(op.scalar_output.isSome = true ∧ op.scalar_reduction.isSome = true)) :
    ¬((applyCall op c).scalar_output.isSome = true ∧
      (applyCall op c).scalar_reduction.isSome = true) := by
  cases c with
  | noAccess s => simpa [applyCall, OpState.add_no_access] using h
  | input s => simpa [applyCall, OpState.add_input] using h
  | output s =>
      by_cases hs : s.scalar
      · by_cases hh : op.has_scalar_output
        · simpa [applyCall, OpState.add_output, hs, hh] using h
        · have hh' : op.has_scalar_output = false := by simpa using hh
          obtain ⟨hr, _⟩ := has_scalar_output_eq_false hh'
          simp [applyCall, OpState.add_output, hs, hh', hr]
      · simpa [applyCall, OpState.add_output, hs] using h
  | reduction s r =>
      by_cases hs : s.scalar
      · by_cases hh : op.has_scalar_output
        · simpa [applyCall, OpState.add_reduction, hs, hh] using h
        · have hh' : op.has_scalar_output = false := by simpa using hh
          obtain ⟨_, ho⟩ := has_scalar_output_eq_false hh'
          simp [applyCall, OpState.add_reduction, hs, hh', ho]
      · simpa [applyCall, OpState.add_reduction, hs] using h

lemma runCalls_at_most_one (calls : List OpCall) :
    ¬((runCalls calls).scalar_output.isSome = true ∧
      (runCalls calls).scalar_reduction.isSome = true) := by
  suffices h : ∀ (cs : List OpCall) (op : OpState),
      ¬(op.scalar_output.isSome = true ∧ op.scalar_reduction.isSome = true) →
      ¬((cs.foldl applyCall op).scalar_output.isSome = true ∧
        (cs.foldl applyCall op).scalar_reduction.isSome = true) by
    exact h calls OpState.init (by simp [OpState.init])
  intro cs
  induction cs with
  | nil => intro op h; simpa using h
  | cons c rest ih => intro op h; exact ih (applyCall op c) (applyCall_at_most_one op c h)

/-- C8: a call of `add_output` or `add_reduction` with a scalar store raises
exactly when the operation already holds a scalar output or a scalar
reduction; a call with a non-scalar store never raises; and on every
operation reachable by a sequence of calls the two scalar slots are never
both occupied. -/
theorem C8_scalar_output_exclusion :
    (∀ (op : OpState) (s : Store),
        (∃ e, op.add_output s = Except.error e) ↔
          (s.scalar = true ∧ op.has_scalar_output = true)) ∧
    (∀ (op : OpState) (s : Store) (r : Nat),
        (∃ e, op.add_reduction s r = Except.error e) ↔
          (s.scalar = true ∧ op.has_scalar_output = true)) ∧
    (∀ calls : List OpCall,
        ¬((runCalls calls).scalar_output.isSome = true ∧
          (runCalls calls).scalar_reduction.isSome = true)) := by
  refine ⟨?_, ?_, runCalls_at_most_one⟩
  · intro op s
    by_cases hs : s.scalar <;> by_cases hh : op.has_scalar_output <;>
      simp [OpState.add_output, hs, hh]
  · intro op s r
    by_cases hs : s.scalar <;> by_cases hh : op.has_scalar_output <;>
      simp [OpState.add_reduction, hs, hh]

/-- C8 witness: concrete evaluation of the theorem.  Adding a scalar output
to a fresh operation succeeds, a second scalar reduction on the result
raises, and a call sequence never occupies both scalar slots. -/
theorem C8_scalar_output_exclusion_witness :
    ((⟨0, true⟩ : Store).scalar = true ∧
      OpState.init.has_scalar_output = false) ∧
    ¬(∃ e, OpState.init.add_output ⟨0, true⟩ = Except.error e) := by
  constructor
  · exact ⟨rfl, rfl⟩
  · intro hcon
    have h := (C8_scalar_output_exclusion.1 OpState.init ⟨0, true⟩).mp hcon
    simp [OpState.init, OpState.has_scalar_output] at h

/-- C9 counterexample: a scalar store passed to `add_input` and then to
`add_output` is returned by `get_all_stores` (through the input list), so
the claim that the result never contains a scalar store passed to
`add_output` is false as stated. -/
theorem C9_counterexample :
    (⟨0, true⟩ : Store).scalar = true ∧
    (⟨0, true⟩ : Store) ∈
      (runCalls [OpCall.input ⟨0, true⟩, OpCall.output ⟨0, true⟩]).get_all_stores := by
  refine ⟨rfl, ?_⟩
  decide

/-- Invariant used for C9: the given store occurs in none of the four
ordered containers of the operation. -/
def NotInLists (s : Store) (op : OpState) : Prop :=
  s ∉ op.no_accesses ∧ s ∉ op.inputs ∧ s ∉ op.outputs ∧
    s ∉ op.reductions.map Prod.fst

lemma applyCall_not_in_lists (s : Store) (op : OpState) (c : OpCall)
    (hs : s.scalar = true)
    (hc : c ≠ OpCall.input s ∧ c ≠ OpCall.noAccess s)
    (h : NotInLists s op) : NotInLists s (applyCall op c) := by
  obtain ⟨h1, h2, h3, h4⟩ := h
  cases c with
  | noAccess t =>
      have hts : t ≠ s := fun he => hc.2 (by rw [he])
      refine ⟨?_, h2, h3, h4⟩
      simp only [applyCall, OpState.add_no_access, List.mem_append, List.mem_singleton]
      rintro (h | h)
      · exact h1 h
      · exact hts h.symm
  | input t =>
      have hts : t ≠ s := fun he => hc.1 (by rw [he])
      refine ⟨h1, ?_, h3, h4⟩
      simp only [applyCall, OpState.add_input, List.mem_append, List.mem_singleton]
      rintro (h | h)
      · exact h2 h
      · exact hts h.symm
  | output t =>
      by_cases ht : t.scalar
      · by_cases hh : op.has_scalar_output
        · have he : applyCall op (OpCall.output t) = op := by
            simp [applyCall, OpState.add_output, ht, hh]
          rw [he]; exact ⟨h1, h2, h3, h4⟩
        · have hh' : op.has_scalar_output = false := by simpa using hh
          have he : applyCall op (OpCall.output t) =
              { op with scalar_output := some t } := by
            simp [applyCall, OpState.add_output, ht, hh']
          rw [he]; exact ⟨h1, h2, h3, h4⟩
      · have ht' : t.scalar = false := by simpa using ht
        have hts : t ≠ s := by
          intro he; rw [he, hs] at ht'; cases ht'
        have he : applyCall op (OpCall.output t) =
            { op with outputs := op.outputs ++ [t] } := by
          simp [applyCall, OpState.add_output, ht']
        rw [he]
        refine ⟨h1, h2, ?_, h4⟩
        simp only [List.mem_append, List.mem_singleton]
        rintro (h | h)
        · exact h3 h
        · exact hts h.symm
  | reduction t r =>
      by_cases ht : t.scalar
      · by_cases hh : op.has_scalar_output
        · have he : applyCall op (OpCall.reduction t r) = op := by
            simp [applyCall, OpState.add_reduction, ht, hh]
          rw [he]; exact ⟨h1, h2, h3, h4⟩
        · have hh' : op.has_scalar_output = false := by simpa using hh
          have he : applyCall op (OpCall.reduction t r) =
              { op with scalar_reduction := some (t, r) } := by
            simp [applyCall, OpState.add_reduction, ht, hh']
          rw [he]; exact ⟨h1, h2, h3, h4⟩
      · have ht' : t.scalar = false := by simpa using ht
        have hts : t ≠ s := by
          intro he; rw [he, hs] at ht'; cases ht'
        have he : applyCall op (OpCall.reduction t r) =
            { op with reductions := op.reductions ++ [(t, r)] } := by
          simp [applyCall, OpState.add_reduction, ht']
        rw [he]
        refine ⟨h1, h2, h3, ?_⟩
        simp only [List.map_append, List.mem_append, List.map_cons, List.map_nil,
          List.mem_singleton]
        rintro (h | h)
        · exact h4 h
        · exact hts h.symm

/-- C9 (amended): a scalar store that is passed to `add_output` or
`add_reduction` but never to `add_input` or `add_no_access` is recorded only
in the scalar slots and never appears in the result of
`get_all_stores`. -/
theorem C9_scalar_store_excluded (calls : List OpCall) (s : Store)
    (hs : s.scalar = true)
    (h : ∀ c ∈ calls, c ≠ OpCall.input s ∧ c ≠ OpCall.noAccess s) :
    s ∉ (runCalls calls).get_all_stores := by
  suffices hgen : ∀ (cs : List OpCall) (op : OpState),
      (∀ c ∈ cs, c ≠ OpCall.input s ∧ c ≠ OpCall.noAccess s) →
      NotInLists s op → s ∉ (cs.foldl applyCall op).get_all_stores by
    exact hgen calls OpState.init h (by simp [OpState.init, NotInLists])
  intro cs
  induction cs with
  | nil =>
      intro op _ h1
      obtain ⟨ha, hb, hc, hd⟩ := h1
      simp only [List.foldl_nil, OpState.get_all_stores]
      simp only [Finset.mem_union, List.mem_toFinset]
      push_neg
      exact ⟨⟨⟨ha, hb⟩, hc⟩, hd⟩
  | cons c rest ih =>
      intro op hc h1
      have hcrest : ∀ x ∈ rest, x ≠ OpCall.input s ∧ x ≠ OpCall.noAccess s := by
        intro x hx; exact hc x (List.mem_cons_of_mem _ hx)
      have hchead := hc c (List.mem_cons_self c rest)
      simp only [List.foldl_cons]
      exact ih (applyCall op c) hcrest (applyCall_not_in_lists s op c hs hchead h1)

/-- C9 witness: the amended theorem applied at a concrete call list. -/
theorem C9_scalar_store_excluded_witness :
    (⟨0, true⟩ : Store) ∉ (runCalls [OpCall.output ⟨0, true⟩]).get_all_stores :=
  C9_scalar_store_excluded [OpCall.output ⟨0, true⟩] ⟨0, true⟩ rfl
    (by intro c hc; simp only [List.mem_singleton] at hc; subst hc; exact ⟨by simp, by simp⟩)

/-! ### Runtime.submit and the scheduling window (runtime.py) -/

/-- The part of the `Runtime` state that `submit` touches: the list
`_outstanding_ops` (ops as numbers) and the `_clearing_pipe` flag. -/
structure SubmitState where
  outstanding : List Nat
  clearing_pipe : Bool
deriving DecidableEq

/-- Embeds `Runtime.submit` restricted to its effect on the window.
`_schedule` never assigns `_outstanding_ops` (it only reads its argument),
so its effect is abstracted away; the batches handed to `_schedule` during
the call are returned as the second component. -/
def submit (window_size : Nat) (st : SubmitState) (op : Nat) :
    SubmitState × List (List Nat) :=
  if st.clearing_pipe then (st, [[op]])
  else
    let outstanding := st.outstanding ++ [op]
    if window_size ≤ outstanding.length then
      ({ st with outstanding := [] }, [outstanding])
    else ({ st with outstanding := outstanding }, [])

/-- Events that touch the window state between launches: a `submit` call,
the toggling of `_clearing_pipe` inside `_schedule`, and
`flush_scheduling_window` (which empties the window before scheduling). -/
inductive RtStep where
  | submitOp (op : Nat)
  | setClearing (b : Bool)
  | flush

def stepState (window_size : Nat) (st : SubmitState) : RtStep → SubmitState
  | RtStep.submitOp op => (submit window_size st op).1
  | RtStep.setClearing b => { st with clearing_pipe := b }
  | RtStep.flush => { st with outstanding := [] }

lemma stepState_bound (window_size : Nat) (st : SubmitState) (e : RtStep)
    (h : st.outstanding.length ≤ window_size) :
    (stepState window_size st e).outstanding.length ≤ window_size := by
  cases e with
  | submitOp op =>
      by_cases hc : st.clearing_pipe
      · simpa [stepState, submit, hc] using h
      · by_cases hw : window_size ≤ st.outstanding.length + 1
        · simp [stepState, submit, hc, hw]
        · simp [stepState, submit, hc, hw]
          omega
  | setClearing b => simpa [stepState] using h
  | flush => simp [stepState]

/-- C5: if `_clearing_pipe` is set, `submit` hands the op straight to
`_schedule` and leaves the window untouched; otherwise the op is appended
and, once the window length reaches `window_size`, the window is emptied and
its contents are scheduled as one batch.  Consequently, after any sequence
of window events starting from the initial state, the number of outstanding
operations never exceeds `window_size`. -/
theorem C5_submit_window_bound (window_size : Nat) :
    (∀ (st : SubmitState) (op : Nat), st.clearing_pipe = true →
        submit window_size st op = (st, [[op]])) ∧
    (∀ (st : SubmitState) (op : Nat), st.clearing_pipe = false →
        submit window_size st op =
          if window_size ≤ st.outstanding.length + 1 then
            ({ st with outstanding := [] }, [st.outstanding ++ [op]])
          else ({ st with outstanding := st.outstanding ++ [op] }, [])) ∧
    (∀ trace : List RtStep,
        (trace.foldl (stepState window_size) ⟨[], false⟩).outstanding.length ≤
          window_size) := by
  refine ⟨?_, ?_, ?_⟩
  · intro st op hc; simp [submit, hc]
  · intro st op hc
    by_cases hw : window_size ≤ st.outstanding.length + 1
    · simp [submit, hc, hw]
    · simp [submit, hc, hw]
  · intro trace
    suffices hgen : ∀ (tr : List RtStep) (st : SubmitState),
        st.outstanding.length ≤ window_size →
        (tr.foldl (stepState window_size) st).outstanding.length ≤ window_size by
      exact hgen trace ⟨[], false⟩ (by simp)
    intro tr
    induction tr with
    | nil => intro st h; simpa using h
    | cons e rest ih =>
        intro st h
        exact ih (stepState window_size st e) (stepState_bound window_size st e h)

/-- C5 witness: the theorem evaluated at window size 2 on concrete states:
a clearing-pipe submit forwards and leaves the window alone, a non-clearing
submit that fills the window drains it, and a concrete trace respects the
bound. -/
theorem C5_submit_window_bound_witness :
    submit 2 ⟨[7], true⟩ 9 = (⟨[7], true⟩, [[9]]) ∧
    submit 2 ⟨[7], false⟩ 9 = (⟨[], false⟩, [[7, 9]]) ∧
    (([RtStep.submitOp 1, RtStep.submitOp 2,
       RtStep.submitOp 3].foldl (stepState 2) ⟨[], false⟩).outstanding.length ≤ 2) := by
  refine ⟨?_, ?_, (C5_submit_window_bound 2).2.2 _⟩
  · exact (C5_submit_window_bound 2).1 ⟨[7], true⟩ 9 rfl
  · have h := (C5_submit_window_bound 2).2.1 ⟨[7], false⟩ 9 rfl
    simpa using h

/-! ### AttachmentManager (runtime.py) -/

/-- Embeds `Attachment`: base pointer and byte extent of the external
buffer, the `shareable` flag, and the weak reference to the region field
(`none` models a weak reference that no longer resolves). -/
structure Attachment where
  ptr : Int
  extent : Int
  shareable : Bool
  region_field : Option Nat
deriving DecidableEq

/-- The derived `end` attribute (`ptr + extent - 1`). -/
def Attachment.endp (a : Attachment) : Int := a.ptr + a.extent - 1

/-- Embeds `Attachment.overlaps`. -/
def Attachment.overlaps (a other : Attachment) : Bool :=
  !(decide (a.endp < other.ptr) || decide (other.endp < a.ptr))

/-- The two `RuntimeError`s `_add_attachment` can raise. -/
inductive AttachErr where
  | duplicate
  | aliased
deriving DecidableEq

/-- The `_attachments` dict, keyed by `(base_ptr, nbytes)`, as an
association list in insertion order. -/
abbrev AttachMap := List ((Int × Int) × Attachment)

/-- Dict lookup on the association list. -/
def lookupKV (m : AttachMap) (key : Int × Int) : Option Attachment :=
  match m with
  | [] => none
  | p :: rest => if p.1 = key then some p.2 else lookupKV rest key

/-- Embeds `AttachmentManager._add_attachment` for a buffer with the given
key: the duplicate-attachment check, the removal of a stale same-key entry,
the overlap scan over the remaining attachments, and the insertion. -/
def add_attachment (m : AttachMap) (key : Int × Int) (shareable : Bool)
    (region_field : Nat) : Except AttachErr AttachMap :=
  let attachment0 := lookupKV m key
  if (match attachment0 with
      | some a => a.region_field.isSome
      | none => false) then
    Except.error AttachErr.duplicate
  else
    let m1 := if attachment0.isSome then m.filter (fun p => p.1 ≠ key) else m
    let attachment := Attachment.mk key.1 key.2 shareable (some region_field)
    if m1.any (fun p => p.2.overlaps attachment) then
      Except.error AttachErr.aliased
    else Except.ok (m1 ++ [(key, attachment)])

/-- C10 counterexample: when a live attachment already occupies the same
key, `_add_attachment` raises the duplicate-attachment error even though the
new byte range also overlaps an attachment stored under a different key, so
"raises the aliased-attachment error whenever the byte range overlaps a
different-key attachment" is false as stated. -/
theorem C10_counterexample :
    add_attachment
        [((0, 10), ⟨0, 10, true, some 1⟩), ((5, 10), ⟨5, 10, false, some 2⟩)]
        (0, 10) true 3 = Except.error AttachErr.duplicate ∧
    ((⟨5, 10, false, some 2⟩ : Attachment).overlaps ⟨0, 10, true, some 3⟩ = true ∧
      ((5, 10) : Int × Int) ≠ (0, 10)) ∧
    add_attachment
        [((0, 10), ⟨0, 10, true, some 1⟩), ((5, 10), ⟨5, 10, false, some 2⟩)]
        (0, 10) true 3 ≠ Except.error AttachErr.aliased := by
  refine ⟨rfl, ⟨by decide, by decide⟩, ?_⟩
  rw [show add_attachment
        [((0, 10), ⟨0, 10, true, some 1⟩), ((5, 10), ⟨5, 10, false, some 2⟩)]
        (0, 10) true 3 = Except.error AttachErr.duplicate from rfl]
  intro h
  exact absurd (Except.error.inj h) (by decide)

lemma lookupKV_none_not_mem (m : AttachMap) (key : Int × Int)
    (h : lookupKV m key = none) : ∀ p ∈ m, p.1 ≠ key := by
  induction m with
  | nil => intro p hp; cases hp
  | cons q rest ih =>
      intro p hp
      by_cases hq : q.1 = key
      · rw [lookupKV, if_pos hq] at h; cases h
      · rw [lookupKV, if_neg hq] at h
        rcases List.mem_cons.mp hp with hpq | hpr
        · rw [hpq]; exact hq
        · exact ih h p hpr

lemma filter_ne_key_eq_self (m : AttachMap) (key : Int × Int)
    (h : ∀ p ∈ m, p.1 ≠ key) : m.filter (fun p => p.1 ≠ key) = m := by
  induction m with
  | nil => rfl
  | cons q rest ih =>
      have hq : q.1 ≠ key := h q (List.mem_cons_self q rest)
      simp only [List.filter_cons, decide_eq_true_eq]
      rw [if_pos hq, ih (fun p hp => h p (List.mem_cons_of_mem q hp))]

lemma mem_filter_ne_key (m : AttachMap) (key : Int × Int) (p : (Int × Int) × Attachment) :
    p ∈ m.filter (fun q => q.1 ≠ key) ↔ p ∈ m ∧ p.1 ≠ key := by
  simp [List.mem_filter]

/-- C10 (amended): provided no live attachment occupies the same key (a
live same-key duplicate raises the duplicate-attachment error first),
`_add_attachment` raises the aliased-attachment error exactly when the new
byte range overlaps an attachment stored under a different key, dead weak
reference or not; and on success the stale same-key entry (if any) has been
removed and replaced by the new attachment while every different-key entry,
stale or live, is kept. -/
theorem C10_aliased_on_overlap (m : AttachMap) (key : Int × Int)
    (shareable : Bool) (region_field : Nat)
    (hstale : ∀ a, lookupKV m key = some a → a.region_field = none) :
    (add_attachment m key shareable region_field =
        Except.error AttachErr.aliased ↔
      ∃ p ∈ m, p.1 ≠ key ∧
        p.2.overlaps (Attachment.mk key.1 key.2 shareable (some region_field)) = true) ∧
    ((∀ p ∈ m, p.1 ≠ key →
        p.2.overlaps (Attachment.mk key.1 key.2 shareable (some region_field)) = false) →
      add_attachment m key shareable region_field =
        Except.ok (m.filter (fun p => p.1 ≠ key) ++
          [(key, Attachment.mk key.1 key.2 shareable (some region_field))])) := by
  have hdup : (match lookupKV m key with
      | some a => a.region_field.isSome
      | none => false) = false := by
    cases hl : lookupKV m key with
    | none => rfl
    | some a => simp [hstale a hl]
  have hm1 : (if (lookupKV m key).isSome then m.filter (fun p => p.1 ≠ key) else m) =
      m.filter (fun p => p.1 ≠ key) := by
    cases hl : lookupKV m key with
    | none =>
        simp only [Option.isSome_none, Bool.false_eq_true, if_false]
        exact (filter_ne_key_eq_self m key (lookupKV_none_not_mem m key hl)).symm
    | some a => simp
  constructor
  · constructor
    · intro herr
      rw [add_attachment] at herr
      simp only [hdup, Bool.false_eq_true, if_false] at herr
      rw [hm1] at herr
      by_cases hov : (m.filter (fun p => p.1 ≠ key)).any
          (fun p => p.2.overlaps (Attachment.mk key.1 key.2 shareable (some region_field)))
      · rcases List.any_eq_true.mp hov with ⟨p, hp, hpov⟩
        rcases (mem_filter_ne_key m key p).mp hp with ⟨hpm, hpk⟩
        exact ⟨p, hpm, hpk, hpov⟩
      · rw [if_neg (by simpa using hov)] at herr
        cases herr
    · rintro ⟨p, hpm, hpk, hpov⟩
      rw [add_attachment]
      simp only [hdup, Bool.false_eq_true, if_false]
      rw [hm1]
      have hov : (m.filter (fun q => q.1 ≠ key)).any
          (fun q => q.2.overlaps (Attachment.mk key.1 key.2 shareable (some region_field))) = true :=
        List.any_eq_true.mpr ⟨p, (mem_filter_ne_key m key p).mpr ⟨hpm, hpk⟩, hpov⟩
      rw [if_pos hov]
  · intro hno
    rw [add_attachment]
    simp only [hdup, Bool.false_eq_true, if_false]
    rw [hm1]
    have hov : (m.filter (fun q => q.1 ≠ key)).any
        (fun q => q.2.overlaps (Attachment.mk key.1 key.2 shareable (some region_field))) = false := by
      cases hany : (m.filter (fun q => q.1 ≠ key)).any
          (fun q => q.2.overlaps (Attachment.mk key.1 key.2 shareable (some region_field))) with
      | false => rfl
      | true =>
          exfalso
          rcases List.any_eq_true.mp hany with ⟨p, hp, hpov⟩
          rcases (mem_filter_ne_key m key p).mp hp with ⟨hpm, hpk⟩
          rw [hno p hpm hpk] at hpov
          cases hpov
    rw [if_neg (by rw [hov]; exact Bool.false_ne_true)]

/-- C10 witness: the amended theorem applied to a concrete map holding a
stale same-key attachment and a live different-key overlapping one: the call
raises the aliased-attachment error. -/
theorem C10_aliased_on_overlap_witness :
    add_attachment
        [((0, 10), ⟨0, 10, true, none⟩), ((20, 4), ⟨20, 4, false, some 2⟩)]
        (18, 4) true 3 = Except.error AttachErr.aliased := by
  have h := (C10_aliased_on_overlap
      [((0, 10), ⟨0, 10, true, none⟩), ((20, 4), ⟨20, 4, false, some 2⟩)]
      (18, 4) true 3 (by intro a ha; cases ha)).1
  exact h.mpr ⟨((20, 4), ⟨20, 4, false, some 2⟩), by decide, by decide, by decide⟩

/-! ### FieldMatch.update_free_fields and FieldManager.free_field (runtime.py) -/

/-- The part of `FieldManager` that `free_field` touches: `free_fields` (the
shard-ordered queue) and `freed_fields` (the unordered buffer); `destroy`
sets both to Python `None`, modelled by `none`.  Regions are represented by
their tree ids, the component `FieldMatch` matches on, so a local field is a
`(tree_id, field_id)` pair. -/
structure FMState where
  free_fields : Option (List (Nat × Nat))
  freed_fields : Option (List (Nat × Nat))
deriving DecidableEq

/-- Embeds `FieldManager.free_field`. -/
def free_field (st : FMState) (region field_id : Nat) (ordered : Bool) : FMState :=
  if ordered then
    match st.free_fields with
    | some l => { st with free_fields := some (l ++ [(region, field_id)]) }
    | none => st
  else
    match st.freed_fields with
    | some l => { st with freed_fields := some (l ++ [(region, field_id)]) }
    | none => st

/-- First index of `output` holding exactly the `(tree_id, field_id)` pair;
mirrors the inner `for idx in range(num_fields)` scan of
`update_free_fields`. -/
def findMatchIdx (output : List (Nat × Nat)) (rf : Nat × Nat) : Option Nat :=
  match output with
  | [] => none
  | e :: rest =>
      if e = rf then some 0
      else
        match findMatchIdx rest rf with
        | some i => some (i + 1)
        | none => none

/-- The first loop of `update_free_fields`: each local pair claims the first
matching slot of `ordered_fields` (a failing
`assert ordered_fields[idx] is None` yields `none`); pairs without a match
go back to the unordered queue. -/
def placeFields (fields output : List (Nat × Nat)) (st : FMState) :
    Option (List (Option (Nat × Nat)) × FMState) :=
  fields.foldlM
    (fun acc rf =>
      match findMatchIdx output rf with
      | some idx =>
          match acc.1.getD idx none with
          | some _ => none
          | none => some (acc.1.set idx (some rf), acc.2)
      | none => some (acc.1, free_field acc.2 rf.1 rf.2 false))
    (List.replicate output.length none, st)

/-- Embeds `FieldMatch.update_free_fields`.  The engine future is abstracted
by `output`, the list of accepted `(tree_id, field_id)` pairs it carries
(its length plays the part of the decoded `num_fields` prefix).  A failing
assertion, or the final loop destructuring a `None` slot, yields `none`. -/
def update_free_fields (fields output : List (Nat × Nat)) (st : FMState) :
    Option FMState :=
  if fields.length = 0 then some st
  else if fields.length < output.length then none
  else if 0 < output.length then
    match placeFields fields output st with
    | none => none
    | some (ordered_fields, st1) =>
        ordered_fields.foldlM
          (fun s of =>
            match of with
            | some rf => some (free_field s rf.1 rf.2 true)
            | none => none)
          st1
  else some (fields.foldl (fun s rf => free_field s rf.1 rf.2 false) st)

lemma getD_eq_getElem_local {α : Type} (l : List α) (d : α) (j : Nat)
    (h : j < l.length) : l.getD j d = l[j] := by
  simp [List.getD_eq_getElem?_getD, List.getElem?_eq_getElem h]

lemma getD_set_local {α : Type} (l : List α) (i j : Nat) (v d : α) :
    (l.set i v).getD j d = if j = i ∧ j < l.length then v else l.getD j d := by
  induction l generalizing i j with
  | nil => simp
  | cons a t ih =>
      cases i with
      | zero =>
          cases j with
          | zero => simp
          | succ j2 =>
              rw [if_neg (fun hc => Nat.succ_ne_zero j2 hc.1)]
              simp [List.set_cons_zero, List.getD_cons_succ]
      | succ i2 =>
          cases j with
          | zero =>
              rw [if_neg (fun hc => Nat.succ_ne_zero i2 hc.1.symm)]
              simp [List.set_cons_succ, List.getD_cons_zero]
          | succ j2 =>
              rw [List.set_cons_succ, List.getD_cons_succ, List.getD_cons_succ, ih]
              have hiff : (j2 + 1 = i2 + 1 ∧ j2 + 1 < (a :: t).length) ↔
                  (j2 = i2 ∧ j2 < t.length) := by
                simp only [List.length_cons]
                omega
              simp only [hiff]

lemma getD_replicate_none {α : Type} (n j : Nat) :
    (List.replicate n (none : Option α)).getD j none = none := by
  induction n generalizing j with
  | zero => simp
  | succ n2 ih =>
      cases j with
      | zero => simp [List.replicate_succ]
      | succ j2 => simp [List.replicate_succ, List.getD_cons_succ, ih]

lemma findMatchIdx_none (output : List (Nat × Nat)) (rf : Nat × Nat)
    (h : rf ∉ output) : findMatchIdx output rf = none := by
  induction output with
  | nil => rfl
  | cons e rest ih =>
      have he : ¬e = rf := by
        intro hc; exact h (by rw [hc]; exact List.mem_cons_self rf rest)
      rw [findMatchIdx, if_neg he, ih (fun hm => h (List.mem_cons_of_mem e hm))]

lemma findMatchIdx_mem (output : List (Nat × Nat)) (rf : Nat × Nat)
    (h : rf ∈ output) : ∃ i, findMatchIdx output rf = some i := by
  induction output with
  | nil => cases h
  | cons e rest ih =>
      by_cases he : e = rf
      · exact ⟨0, by rw [findMatchIdx, if_pos he]⟩
      · have hm : rf ∈ rest := by
          rcases List.mem_cons.mp h with h1 | h1
          · exact absurd h1.symm he
          · exact h1
        rcases ih hm with ⟨i, hi⟩
        exact ⟨i + 1, by rw [findMatchIdx, if_neg he, hi]⟩

lemma findMatchIdx_spec (output : List (Nat × Nat)) (rf : Nat × Nat) (i : Nat)
    (h : findMatchIdx output rf = some i) :
    i < output.length ∧ output.getD i (0, 0) = rf := by
  induction output generalizing i with
  | nil => cases h
  | cons e rest ih =>
      by_cases he : e = rf
      · rw [findMatchIdx, if_pos he] at h
        cases h
        exact ⟨by simp, by simpa using he⟩
      · rw [findMatchIdx, if_neg he] at h
        cases hr : findMatchIdx rest rf with
        | none => rw [hr] at h; cases h
        | some i2 =>
            rw [hr] at h
            cases h
            rcases ih i2 hr with ⟨h1, h2⟩
            exact ⟨by simpa using Nat.succ_lt_succ h1, by simpa [List.getD_cons_succ] using h2⟩

lemma nodup_getD_ne (l : List (Nat × Nat)) (h : l.Nodup) (i j : Nat)
    (hi : i < l.length) (hj : j < l.length) (hij : i ≠ j) :
    l.getD i (0, 0) ≠ l.getD j (0, 0) := by
  rw [getD_eq_getElem_local l (0, 0) i hi, getD_eq_getElem_local l (0, 0) j hj]
  intro he
  exact hij ((h.getElem_inj_iff).mp he)

/-- Invariant carried through the claiming loop: `ol` holds exactly the
already-claimed output entries at their own indices. -/
def SlotInv (output : List (Nat × Nat)) (claimed : List (Nat × Nat))
    (ol : List (Option (Nat × Nat))) : Prop :=
  ol.length = output.length ∧
  ∀ j, j < output.length →
    ol.getD j none =
      if output.getD j (0, 0) ∈ claimed then some (output.getD j (0, 0)) else none

lemma placeFields_go (output : List (Nat × Nat)) (hond : output.Nodup) :
    ∀ (fs : List (Nat × Nat)) (claimed : List (Nat × Nat))
      (ol : List (Option (Nat × Nat))) (ff fd : List (Nat × Nat)),
      fs.Nodup →
      (∀ e ∈ fs, e ∉ claimed) →
      SlotInv output claimed ol →
      ∃ ol2 fd2,
        fs.foldlM
          (fun acc rf =>
            match findMatchIdx output rf with
            | some idx =>
                match acc.1.getD idx none with
                | some _ => none
                | none => some (acc.1.set idx (some rf), acc.2)
            | none => some (acc.1, free_field acc.2 rf.1 rf.2 false))
          (ol, (⟨some ff, some fd⟩ : FMState)) = some (ol2, ⟨some ff, some fd2⟩) ∧
        fd2 = fd ++ fs.filter (fun e => decide (e ∉ output)) ∧
        ol2.length = output.length ∧
        (∀ j, j < output.length →
          ol2.getD j none =
            if output.getD j (0, 0) ∈ claimed ∨ output.getD j (0, 0) ∈ fs then
              some (output.getD j (0, 0))
            else none) := by
  intro fs
  induction fs with
  | nil =>
      intro claimed ol ff fd _ _ hinv
      refine ⟨ol, fd, by simp, by simp, hinv.1, ?_⟩
      intro j hj
      rw [hinv.2 j hj]
      simp
  | cons rf fs2 ih =>
      intro claimed ol ff fd hnd hcl hinv
      have hnd2 : fs2.Nodup := (List.nodup_cons.mp hnd).2
      have hrfs2 : rf ∉ fs2 := (List.nodup_cons.mp hnd).1
      by_cases hro : rf ∈ output
      · rcases findMatchIdx_mem output rf hro with ⟨idx, hidx⟩
        rcases findMatchIdx_spec output rf idx hidx with ⟨hlt, hval⟩
        have hrfncl : rf ∉ claimed := hcl rf (List.mem_cons_self rf fs2)
        have hslot : ol.getD idx none = none := by
          rw [hinv.2 idx hlt, hval, if_neg hrfncl]
        have hinv2 : SlotInv output (claimed ++ [rf]) (ol.set idx (some rf)) := by
          constructor
          · rw [List.length_set]; exact hinv.1
          · intro j hj
            rw [getD_set_local]
            by_cases hji : j = idx
            · subst hji
              rw [if_pos ⟨rfl, by rw [hinv.1]; exact hlt⟩, hval]
              rw [if_pos (by simp)]
            · rw [if_neg (by intro hc; exact hji hc.1)]
              rw [hinv.2 j hj]
              have hne : output.getD j (0, 0) ≠ rf := by
                rw [← hval]
                exact nodup_getD_ne output hond j idx hj hlt hji
              by_cases hjc : output.getD j (0, 0) ∈ claimed
              · rw [if_pos hjc, if_pos (List.mem_append.mpr (Or.inl hjc))]
              · rw [if_neg hjc, if_neg (fun hc => by
                  rcases List.mem_append.mp hc with h | h
                  · exact hjc h
                  · exact hne (List.mem_singleton.mp h))]
        have hcl2 : ∀ e ∈ fs2, e ∉ claimed ++ [rf] := by
          intro e he
          simp only [List.mem_append, List.mem_singleton]
          rintro (hc | hc)
          · exact hcl e (List.mem_cons_of_mem rf he) hc
          · exact hrfs2 (hc ▸ he)
        rcases ih (claimed ++ [rf]) (ol.set idx (some rf)) ff fd hnd2 hcl2 hinv2
          with ⟨ol2, fd2, heq, hfd, hlen, hpt⟩
        refine ⟨ol2, fd2, ?_, ?_, hlen, ?_⟩
        · simp only [List.foldlM_cons, hidx, hslot]
          simpa using heq
        · rw [hfd, List.filter_cons, if_neg (by simp [hro])]
        · intro j hj
          rw [hpt j hj]
          by_cases hjn : output.getD j (0, 0) ∈ claimed ∨ output.getD j (0, 0) ∈ rf :: fs2
          · rw [if_pos hjn]
            rcases hjn with hc | hc
            · rw [if_pos (Or.inl (List.mem_append.mpr (Or.inl hc)))]
            · rcases List.mem_cons.mp hc with hc2 | hc2
              · rw [if_pos (Or.inl (List.mem_append.mpr
                  (Or.inr (List.mem_singleton.mpr hc2))))]
              · rw [if_pos (Or.inr hc2)]
          · rw [if_neg hjn]
            rw [if_neg]
            push_neg at hjn ⊢
            refine ⟨?_, ?_⟩
            · intro hc
              simp only [List.mem_append, List.mem_singleton] at hc
              rcases hc with hc | hc
              · exact hjn.1 hc
              · exact hjn.2 (by rw [hc]; exact List.mem_cons_self rf fs2)
            · intro hc
              exact hjn.2 (List.mem_cons_of_mem rf hc)
      · have hidx : findMatchIdx output rf = none := findMatchIdx_none output rf hro
        have hcl2 : ∀ e ∈ fs2, e ∉ claimed :=
          fun e he => hcl e (List.mem_cons_of_mem rf he)
        rcases ih claimed ol ff (fd ++ [(rf.1, rf.2)]) hnd2 hcl2 hinv
          with ⟨ol2, fd2, heq, hfd, hlen, hpt⟩
        refine ⟨ol2, fd2, ?_, ?_, hlen, ?_⟩
        · have hstep2 : free_field (⟨some ff, some fd⟩ : FMState) rf.1 rf.2 false =
              (⟨some ff, some (fd ++ [(rf.1, rf.2)])⟩ : FMState) := by
            simp [free_field]
          simp only [List.foldlM_cons, hidx, hstep2]
          simpa using heq
        · rw [hfd, List.filter_cons, if_pos (by simp [hro])]
          simp
        · intro j hj
          rw [hpt j hj]
          have hne : output.getD j (0, 0) ≠ rf := by
            intro hc
            rw [← hc] at hro
            exact hro (by
              rw [getD_eq_getElem_local output (0, 0) j hj]
              exact output.getElem_mem hj)
          by_cases hjn : output.getD j (0, 0) ∈ claimed ∨ output.getD j (0, 0) ∈ fs2
          · rw [if_pos hjn]
            rcases hjn with hc | hc
            · rw [if_pos (Or.inl hc)]
            · rw [if_pos (Or.inr (List.mem_cons_of_mem rf hc))]
          · rw [if_neg hjn, if_neg]
            push_neg at hjn ⊢
            refine ⟨hjn.1, ?_⟩
            intro hc
            rcases List.mem_cons.mp hc with hc2 | hc2
            · exact hne hc2
            · exact hjn.2 hc2

lemma list_eq_map_some (output : List (Nat × Nat)) (ol : List (Option (Nat × Nat)))
    (hlen : ol.length = output.length)
    (hpt : ∀ j, j < output.length → ol.getD j none = some (output.getD j (0, 0))) :
    ol = output.map some := by
  apply List.ext_getElem
  · rw [hlen, List.length_map]
  · intro j h1 h2
    have hj : j < output.length := by rw [hlen] at h1; exact h1
    have hval := hpt j hj
    rw [getD_eq_getElem_local ol none j h1,
      getD_eq_getElem_local output (0, 0) j hj] at hval
    rw [hval, List.getElem_map]

lemma ordered_pass (out : List (Nat × Nat)) :
    ∀ (ff fd : List (Nat × Nat)),
      (out.map some).foldlM
        (fun s of =>
          match of with
          | some rf => some (free_field s rf.1 rf.2 true)
          | none => none)
        (⟨some ff, some fd⟩ : FMState) =
      some (⟨some (ff ++ out), some fd⟩ : FMState) := by
  induction out with
  | nil => intro ff fd; simp
  | cons rf rest ih =>
      intro ff fd
      have hstep : free_field (⟨some ff, some fd⟩ : FMState) rf.1 rf.2 true =
          (⟨some (ff ++ [rf]), some fd⟩ : FMState) := by
        simp [free_field]
      simp only [List.map_cons, List.foldlM_cons, hstep]
      simpa [List.append_assoc] using ih (ff ++ [rf]) fd

lemma unordered_pass (fs : List (Nat × Nat)) :
    ∀ (ff fd : List (Nat × Nat)),
      fs.foldl (fun s rf => free_field s rf.1 rf.2 false)
        (⟨some ff, some fd⟩ : FMState) =
      (⟨some ff, some (fd ++ fs)⟩ : FMState) := by
  induction fs with
  | nil => intro ff fd; simp
  | cons rf rest ih =>
      intro ff fd
      have hstep : free_field (⟨some ff, some fd⟩ : FMState) rf.1 rf.2 false =
          (⟨some ff, some (fd ++ [rf])⟩ : FMState) := by
        simp [free_field]
      simp only [List.foldl_cons, hstep]
      simpa [List.append_assoc] using ih ff (fd ++ [rf])

/-- C4: on a live manager, when the local fields list is non-empty, its
pairs are distinct and the accepted buffer is a duplicate-free subset of
them, `update_free_fields` appends to `free_fields` exactly the accepted
pairs in the buffer's order and pushes every non-accepted local pair back
onto `freed_fields` in local order. -/
theorem C4_update_free_fields (fields output ff fd : List (Nat × Nat))
    (hne : fields ≠ []) (hfnd : fields.Nodup) (hond : output.Nodup)
    (hsub : ∀ e ∈ output, e ∈ fields) :
    update_free_fields fields output ⟨some ff, some fd⟩ =
      some ⟨some (ff ++ output),
            some (fd ++ fields.filter (fun e => decide (e ∉ output)))⟩ := by
  have hlen0 : ¬fields.length = 0 := by
    intro h; exact hne (List.eq_nil_of_length_eq_zero h)
  have hlenle : output.length ≤ fields.length := by
    have h1 : output.toFinset.card = output.length := List.toFinset_card_of_nodup hond
    have h2 : output.toFinset ⊆ fields.toFinset := by
      intro x hx
      rw [List.mem_toFinset] at hx ⊢
      exact hsub x hx
    calc output.length = output.toFinset.card := h1.symm
      _ ≤ fields.toFinset.card := Finset.card_le_card h2
      _ ≤ fields.length := List.toFinset_card_le fields
  rw [update_free_fields, if_neg hlen0, if_neg (by omega)]
  by_cases hout : 0 < output.length
  · rw [if_pos hout]
    have hinv0 : SlotInv output [] (List.replicate output.length none) := by
      constructor
      · simp
      · intro j hj
        rw [getD_replicate_none, if_neg (List.not_mem_nil _)]
    have hcl0 : ∀ e ∈ fields, e ∉ ([] : List (Nat × Nat)) :=
      fun e _ => List.not_mem_nil e
    rcases placeFields_go output hond fields [] (List.replicate output.length none)
        ff fd hfnd hcl0 hinv0 with ⟨ol2, fd2, heq, hfd, hlen, hpt⟩
    have hpf : placeFields fields output ⟨some ff, some fd⟩ =
        some (ol2, ⟨some ff, some fd2⟩) := heq
    have hol2 : ol2 = output.map some := by
      apply list_eq_map_some output ol2 hlen
      intro j hj
      rw [hpt j hj, if_pos]
      right
      refine hsub _ ?_
      rw [getD_eq_getElem_local output (0, 0) j hj]
      exact output.getElem_mem hj
    rw [hpf]
    rw [hol2, hfd]
    exact ordered_pass output ff (fd ++ fields.filter (fun e => decide (e ∉ output)))
  · have houte : output = [] := List.eq_nil_of_length_eq_zero (by omega)
    subst houte
    rw [if_neg hout, unordered_pass fields ff fd]
    simp [List.filter_eq_self]

/-- C4 witness: the theorem at the spec scenario: local list
`[f1, f2, f3]`, accepted buffer `[f2]`: `free_fields` gains `[f2]`,
`freed_fields` gains `f1` then `f3`. -/
theorem C4_update_free_fields_witness :
    update_free_fields [(1, 1), (1, 2), (1, 3)] [(1, 2)] ⟨some [], some []⟩ =
      some ⟨some [(1, 2)], some [(1, 1), (1, 3)]⟩ := by
  have h := C4_update_free_fields [(1, 1), (1, 2), (1, 3)] [(1, 2)] [] []
    (by decide) (by decide) (by decide) (by decide)
  exact h.trans (by decide)

/-! ### PartitionManager.compute_launch_shape (runtime.py)

The tunables `num_pieces` and `min_shard_volume` and the constructor-derived
`piece_factors` are passed as parameters.  The `_launch_spaces` memo table is
not modelled: it starts empty on a fresh manager and only ever stores
previous results of this same pure computation.  `math.sqrt` together with
the `1e-12` rounding guards of the 2-d branch (`floor(n + 1e-12)`,
`ceil(n - 1e-12)`, guards against float error when `n` is an exact integer)
is modelled as the exact floor and ceiling of the real square root of the
rational `max_pieces * nx / ny`, computed by integer arithmetic. -/

/-- Largest `k ≤ fuel` with `k * k ≤ n` (linear search downward). -/
def natSqrtAux (n : Nat) : Nat → Nat
  | 0 => 0
  | k + 1 => if (k + 1) * (k + 1) ≤ n then k + 1 else natSqrtAux n k

/-- Floor of the square root of `n`. -/
def natSqrt (n : Nat) : Nat := natSqrtAux n n

/-- The loop `while max_pieces % n1 != 0: n1 -= 1`. -/
def decToDiv (m : Nat) : Nat → Nat
  | 0 => 0
  | n + 1 => if m % (n + 1) = 0 then n + 1 else decToDiv m n

/-- The loop `while max_pieces % n2 != 0: n2 += 1`, fueled; at its call
sites the start value never exceeds `m`, so `m + 1 - n` steps suffice. -/
def incToDivAux (m : Nat) : Nat → Nat → Nat
  | 0, n => n
  | fuel + 1, n => if m % n = 0 then n else incToDivAux m fuel (n + 1)

def incToDiv (m n : Nat) : Nat := incToDivAux m (m + 1 - n) n

/-- One `while pieces % f == 0` factor-extraction loop of
`PartitionManager.__init__`, fueled (the fuel `p` always suffices since `p`
at least halves at every division). -/
def extractFactorAux (f : Nat) : Nat → Nat → List Nat × Nat
  | 0, p => ([], p)
  | fuel + 1, p =>
      if 2 ≤ f ∧ 1 ≤ p ∧ p % f = 0 then
        let r := extractFactorAux f fuel (p / f)
        (f :: r.1, r.2)
      else ([], p)

def extractFactor (f p : Nat) : List Nat × Nat := extractFactorAux f p p

/-- The `_piece_factors` list: factors 2, 3, 5, 7, 11 extracted in order and
reversed (descending).  A remainder above 1 raises `ValueError` in the
constructor; the claims quantify only over accepted configurations. -/
def pieceFactors (num_pieces : Nat) : List Nat :=
  let r2 := extractFactor 2 num_pieces
  let r3 := extractFactor 3 r2.2
  let r5 := extractFactor 5 r3.2
  let r7 := extractFactor 7 r5.2
  let r11 := extractFactor 11 r7.2
  (r2.1 ++ r3.1 ++ r5.1 ++ r7.1 ++ r11.1).reverse

/-- Python `temp_result[i] *= factor`. -/
def mulAt : List Nat → Nat → Nat → List Nat
  | [], _, _ => []
  | x :: xs, 0, f => (x * f) :: xs
  | x :: xs, i + 1, f => x :: mulAt xs i f

/-- Python `l.index(max(l))`: first index of the maximum. -/
def idxOfMax (l : List Nat) : Nat := l.indexOf (l.foldl max 0)

/-- The `d >= 3` branch of `_compute_launch_shape`: place the prime factors
of `num_pieces` one by one onto the currently largest remaining dimension,
preferring not to use the last dimension unless its tile stays at least
32. -/
def placeFactors (temp_shape : List Nat) (max_pieces : Nat) :
    List Nat → List Nat → Nat → List Nat
  | [], temp_result, _ => temp_result
  | factor :: rest, temp_result, factor_prod =>
      if max_pieces < factor * factor_prod then temp_result
      else
        let factor_prod2 := factor * factor_prod
        let remaining := List.zipWith (fun s r => (s + r - 1) / r) temp_shape temp_result
        let big_dim := idxOfMax remaining
        let dims := temp_shape.length
        let temp_result2 :=
          if big_dim < dims - 1 then mulAt temp_result big_dim factor
          else if remaining.length = 1 ∨ 32 ≤ remaining.getD big_dim 0 / factor then
            mulAt temp_result big_dim factor
          else
            let big_dim2 := remaining.indexOf
              ((remaining.take (remaining.length - 1)).foldl max 0)
            if 0 < remaining.getD big_dim2 0 / factor then
              mulAt temp_result big_dim2 factor
            else mulAt temp_result (dims - 1) factor
        placeFactors temp_shape max_pieces rest temp_result2 factor_prod2

/-- The `dims == 2` square-root branch of `_compute_launch_shape`: pick a
divisor pair `(px, py)` of `max_pieces` that keeps the blocks close to
square, then clamp each axis to its extent.  `nx0, ny0` are the two kept
extents. -/
def twoDimLaunch (max_pieces nx0 ny0 : Nat) : List Nat :=
  let swap := ny0 < nx0
  let nx := if swap then ny0 else nx0
  let ny := if swap then nx0 else ny0
  let a := max_pieces * nx
  let s := natSqrt (a / ny)
  let n1 := decToDiv max_pieces (max s 1)
  let ceilN := if s * s * ny = a then s else s + 1
  let n2 := incToDiv max_pieces ceilN
  let side1 := max (nx / n1) (ny / (max_pieces / n1))
  let side2 := max (nx / n2) (ny / (max_pieces / n2))
  let px := if side1 ≤ side2 then n1 else n2
  let py := max_pieces / px
  if swap then [min py nx0, min px ny0]
  else [min px nx0, min py ny0]

/-- The dimensionality dispatch of `_compute_launch_shape` computing
`temp_result` from the pruned shape (the `dims == 0` case returns before
reaching this point). -/
def innerTempResult (max_pieces : Nat) (temp_shape : List Nat) (volume : Nat)
    (piece_factors : List Nat) : List Nat :=
  if temp_shape.length = 1 then [min (temp_shape.getD 0 0) max_pieces]
  else if temp_shape.length = 2 then
    if volume < max_pieces then temp_shape
    else twoDimLaunch max_pieces (temp_shape.getD 0 0) (temp_shape.getD 1 0)
  else
    placeFactors temp_shape max_pieces piece_factors
      (temp_shape.map (fun _ => 1)) 1

/-- The final projection of `_compute_launch_shape` back onto the original
rank: kept dimensions read their entry of `temp_result`, pruned ones get
1. -/
def projectResult (shape : List Nat) (temp_dims temp_result : List Nat) :
    List Nat :=
  (List.range shape.length).map (fun d =>
    if d ∈ temp_dims then temp_result.getD (temp_dims.indexOf d) 1 else 1)

/-- Embeds `PartitionManager._compute_launch_shape` on the already-filtered
shape tuple. -/
def compute_launch_shape_inner (num_pieces min_shard_volume : Nat)
    (shape : List Nat) : Option (List Nat) :=
  if num_pieces = 1 then none
  else if shape.all (fun ext => ext ≤ 1) then none
  else
    let temp_dims := (List.range shape.length).filter (fun d => shape.getD d 1 ≠ 1)
    let temp_shape := temp_dims.map (fun d => shape.getD d 1)
    let volume := temp_shape.prod
    let max_pieces0 := (volume + min_shard_volume - 1) / min_shard_volume
    if max_pieces0 = 1 then none
    else
      let max_pieces := num_pieces
      if temp_shape.length = 0 then some (shape.map (fun _ => 1))
      else
        some (projectResult shape temp_dims
          (innerTempResult max_pieces temp_shape volume (pieceFactors num_pieces)))

/-- The per-dimension partitioning restriction (partition.py). -/
inductive Restriction where
  | avoided
  | allowed
  | restricted
deriving DecidableEq

/-- Projection of the inner launch shape back over the restriction vector:
non-restricted dimensions consume the next component, RESTRICTED dimensions
get 1. -/
def reinsertRestricted : List Restriction → List Nat → List Nat
  | [], _ => []
  | r :: rs, ls =>
      if r ≠ Restriction.restricted then
        ls.headD 1 :: reinsertRestricted rs ls.tail
      else 1 :: reinsertRestricted rs ls

/-- Embeds `PartitionManager.compute_launch_shape`: filter out RESTRICTED
dimensions, run `_compute_launch_shape`, and project the result back. -/
def compute_launch_shape (num_pieces min_shard_volume : Nat)
    (shape : List Nat) (restrictions : List Restriction) : Option (List Nat) :=
  let to_partition := (List.zip shape restrictions).filterMap
    (fun p => if p.2 ≠ Restriction.restricted then some p.1 else none)
  match compute_launch_shape_inner num_pieces min_shard_volume to_partition with
  | none => none
  | some launch_shape => some (reinsertRestricted restrictions launch_shape)

/-- C7: with `num_pieces = 4` and `min_shard_volume = 1`, a store of shape
`(100, 100)` with both dimensions ALLOWED gets the launch shape
`(2, 2)`. -/
theorem C7_launch_shape_100_100 :
    compute_launch_shape 4 1 [100, 100] [Restriction.allowed, Restriction.allowed] =
      some [2, 2] := by
  decide

/-- C2 counterexample: in the `d >= 3` branch nothing clamps the components
to the extents: with `num_pieces = 16`, `min_shard_volume = 1` and shape
`(2, 2, 2)` (all ALLOWED) the launch shape is `(4, 2, 2)`, whose first
component exceeds the extent 2, refuting the per-component upper bound of
the claim. -/
theorem C2_counterexample :
    compute_launch_shape 16 1 [2, 2, 2]
        [Restriction.allowed, Restriction.allowed, Restriction.allowed] =
      some [4, 2, 2] ∧
    ¬(∀ ls, compute_launch_shape 16 1 [2, 2, 2]
        [Restriction.allowed, Restriction.allowed, Restriction.allowed] = some ls →
        ∀ i, i < ls.length → ls.getD i 0 ≤ [2, 2, 2].getD i 0) := by
  refine ⟨by decide, ?_⟩
  intro h
  have h2 := h [4, 2, 2] (by decide) 0 (by decide)
  simp at h2

lemma getD1_pos (l : List Nat) (h : ∀ x ∈ l, 1 ≤ x) (i : Nat) : 1 ≤ l.getD i 1 := by
  by_cases hi : i < l.length
  · rw [getD_eq_getElem_local l 1 i hi]
    exact h _ (l.getElem_mem hi)
  · rw [List.getD_eq_getElem?_getD, List.getElem?_eq_none (by omega)]
    exact Nat.le_refl 1

lemma mulAt_length (l : List Nat) : ∀ (i f : Nat), (mulAt l i f).length = l.length := by
  induction l with
  | nil => intro i f; rfl
  | cons x xs ih =>
      intro i f
      cases i with
      | zero => rfl
      | succ i2 => simp [mulAt, ih]

lemma mulAt_pos (l : List Nat) : ∀ (i f : Nat), (∀ x ∈ l, 1 ≤ x) → 1 ≤ f →
    ∀ x ∈ mulAt l i f, 1 ≤ x := by
  induction l with
  | nil => intro i f _ _ x hx; cases hx
  | cons a xs ih =>
      intro i f hl hf x hx
      cases i with
      | zero =>
          rcases List.mem_cons.mp hx with h | h
          · subst h
            have ha : 1 ≤ a := hl a (List.mem_cons_self a xs)
            calc 1 = 1 * 1 := rfl
              _ ≤ a * f := Nat.mul_le_mul ha hf
          · exact hl x (List.mem_cons_of_mem a h)
      | succ i2 =>
          rcases List.mem_cons.mp hx with h | h
          · subst h; exact hl x (List.mem_cons_self x xs)
          · exact ih i2 f (fun y hy => hl y (List.mem_cons_of_mem a hy)) hf x h

lemma mulAt_prod_le (l : List Nat) : ∀ (i f : Nat), 1 ≤ f →
    (mulAt l i f).prod ≤ f * l.prod := by
  induction l with
  | nil => intro i f hf; simpa using hf
  | cons a xs ih =>
      intro i f hf
      cases i with
      | zero =>
          simp only [mulAt, List.prod_cons]
          calc a * f * xs.prod = f * (a * xs.prod) := by ring
            _ ≤ f * (a * xs.prod) := Nat.le_refl _
      | succ i2 =>
          simp only [mulAt, List.prod_cons]
          calc a * (mulAt xs i2 f).prod ≤ a * (f * xs.prod) :=
                Nat.mul_le_mul_left a (ih i2 f hf)
            _ = f * (a * xs.prod) := by ring

lemma placeFactors_length (ts : List Nat) (mp : Nat) :
    ∀ (factors tr : List Nat) (fp : Nat),
      (placeFactors ts mp factors tr fp).length = tr.length := by
  intro factors
  induction factors with
  | nil => intro tr fp; rfl
  | cons f rest ih =>
      intro tr fp
      rw [placeFactors]
      by_cases hb : mp < f * fp
      · rw [if_pos hb]
      · rw [if_neg hb]
        dsimp only
        split
        · rw [ih, mulAt_length]
        · split
          · rw [ih, mulAt_length]
          · split
            · rw [ih, mulAt_length]
            · rw [ih, mulAt_length]

lemma placeFactors_pos (ts : List Nat) (mp : Nat) :
    ∀ (factors tr : List Nat) (fp : Nat),
      (∀ f ∈ factors, 1 ≤ f) → (∀ x ∈ tr, 1 ≤ x) →
      ∀ x ∈ placeFactors ts mp factors tr fp, 1 ≤ x := by
  intro factors
  induction factors with
  | nil => intro tr fp _ htr x hx; exact htr x hx
  | cons f rest ih =>
      intro tr fp hfs htr x hx
      have hf : 1 ≤ f := hfs f (List.mem_cons_self f rest)
      have hrest : ∀ g ∈ rest, 1 ≤ g := fun g hg => hfs g (List.mem_cons_of_mem f hg)
      rw [placeFactors] at hx
      by_cases hb : mp < f * fp
      · rw [if_pos hb] at hx; exact htr x hx
      · rw [if_neg hb] at hx
        revert hx
        dsimp only
        split
        · exact fun hx => ih _ _ hrest (mulAt_pos tr _ f htr hf) x hx
        · split
          · exact fun hx => ih _ _ hrest (mulAt_pos tr _ f htr hf) x hx
          · split
            · exact fun hx => ih _ _ hrest (mulAt_pos tr _ f htr hf) x hx
            · exact fun hx => ih _ _ hrest (mulAt_pos tr _ f htr hf) x hx

lemma placeFactors_prod_le (ts : List Nat) (mp : Nat) :
    ∀ (factors tr : List Nat) (fp : Nat),
      (∀ f ∈ factors, 1 ≤ f) → tr.prod ≤ fp → fp ≤ mp →
      (placeFactors ts mp factors tr fp).prod ≤ mp := by
  intro factors
  induction factors with
  | nil => intro tr fp _ h1 h2; exact Nat.le_trans h1 h2
  | cons f rest ih =>
      intro tr fp hfs h1 h2
      have hf : 1 ≤ f := hfs f (List.mem_cons_self f rest)
      have hrest : ∀ g ∈ rest, 1 ≤ g := fun g hg => hfs g (List.mem_cons_of_mem f hg)
      rw [placeFactors]
      by_cases hb : mp < f * fp
      · rw [if_pos hb]; exact Nat.le_trans h1 h2
      · rw [if_neg hb]
        have hfp2 : f * fp ≤ mp := Nat.le_of_not_lt hb
        have hmul : ∀ i, (mulAt tr i f).prod ≤ f * fp :=
          fun i => Nat.le_trans (mulAt_prod_le tr i f hf) (Nat.mul_le_mul_left f h1)
        dsimp only
        split
        · exact ih _ _ hrest (hmul _) hfp2
        · split
          · exact ih _ _ hrest (hmul _) hfp2
          · split
            · exact ih _ _ hrest (hmul _) hfp2
            · exact ih _ _ hrest (hmul _) hfp2

lemma extractFactorAux_mem (f : Nat) :
    ∀ (fuel p : Nat) (x : Nat), x ∈ (extractFactorAux f fuel p).1 → x = f := by
  intro fuel
  induction fuel with
  | zero => intro p x hx; cases hx
  | succ fuel2 ih =>
      intro p x hx
      rw [extractFactorAux] at hx
      by_cases hc : 2 ≤ f ∧ 1 ≤ p ∧ p % f = 0
      · rw [if_pos hc] at hx
        rcases List.mem_cons.mp hx with h | h
        · exact h
        · exact ih (p / f) x h
      · rw [if_neg hc] at hx; cases hx

lemma extractFactorAux_ge_two (f : Nat) (fuel p x : Nat)
    (hx : x ∈ (extractFactorAux f fuel p).1) : 2 ≤ x := by
  cases fuel with
  | zero => cases hx
  | succ fuel2 =>
      rw [extractFactorAux] at hx
      by_cases hc : 2 ≤ f ∧ 1 ≤ p ∧ p % f = 0
      · rw [if_pos hc] at hx
        have := extractFactorAux_mem f (fuel2 + 1) p x (by rw [extractFactorAux, if_pos hc]; exact hx)
        rw [this]; exact hc.1
      · rw [if_neg hc] at hx; cases hx

lemma pieceFactors_ge_two (np : Nat) : ∀ x ∈ pieceFactors np, 2 ≤ x := by
  intro x hx
  rw [pieceFactors, List.mem_reverse] at hx
  simp only [List.mem_append] at hx
  rcases hx with ((((h | h) | h) | h) | h) <;>
    exact extractFactorAux_ge_two _ _ _ x h

lemma decToDiv_spec (m : Nat) : ∀ n, 1 ≤ n → 1 ≤ decToDiv m n ∧ m % decToDiv m n = 0 := by
  intro n
  induction n with
  | zero => intro h; cases h
  | succ n2 ih =>
      intro _
      rw [decToDiv]
      by_cases hc : m % (n2 + 1) = 0
      · rw [if_pos hc]; exact ⟨Nat.succ_le_succ (Nat.zero_le n2), hc⟩
      · rw [if_neg hc]
        cases n2 with
        | zero => exact absurd (Nat.mod_one m) hc
        | succ n3 => exact ih (Nat.succ_le_succ (Nat.zero_le n3))

lemma incToDivAux_spec (m : Nat) :
    ∀ (fuel n : Nat), n ≤ m → m - n < fuel → m % incToDivAux m fuel n = 0 := by
  intro fuel
  induction fuel with
  | zero => intro n _ h2; omega
  | succ fuel2 ih =>
      intro n hn h2
      rw [incToDivAux]
      by_cases hc : m % n = 0
      · rw [if_pos hc]; exact hc
      · rw [if_neg hc]
        have hne : n ≠ m := by
          intro he; subst he; exact hc (Nat.mod_self n)
        have hlt : n < m := Nat.lt_of_le_of_ne hn hne
        exact ih (n + 1) hlt (by omega)

lemma incToDiv_spec (m n : Nat) (hn : n ≤ m) (hm : 1 ≤ m) :
    1 ≤ incToDiv m n ∧ m % incToDiv m n = 0 := by
  have h : m % incToDiv m n = 0 := incToDivAux_spec m (m + 1 - n) n hn (by omega)
  refine ⟨?_, h⟩
  by_contra hz
  have hz2 : incToDiv m n = 0 := by omega
  rw [hz2, Nat.mod_zero] at h
  omega

lemma natSqrtAux_le_or (n : Nat) : ∀ fuel, natSqrtAux n fuel = 0 ∨
    natSqrtAux n fuel * natSqrtAux n fuel ≤ n := by
  intro fuel
  induction fuel with
  | zero => exact Or.inl rfl
  | succ k ih =>
      rw [natSqrtAux]
      by_cases hc : (k + 1) * (k + 1) ≤ n
      · rw [if_pos hc]; exact Or.inr hc
      · rw [if_neg hc]; exact ih

lemma one_le_prod_local (l : List Nat) (h : ∀ x ∈ l, 1 ≤ x) : 1 ≤ l.prod := by
  induction l with
  | nil => exact Nat.le_refl 1
  | cons a t ih =>
      rw [List.prod_cons]
      calc 1 = 1 * 1 := rfl
        _ ≤ a * t.prod := Nat.mul_le_mul (h a (List.mem_cons_self a t))
            (ih (fun x hx => h x (List.mem_cons_of_mem a hx)))

lemma take_succ_prod (tr : List Nat) : ∀ k, (tr.take (k + 1)).prod =
    (tr.take k).prod * tr.getD k 1 := by
  induction tr with
  | nil => intro k; simp
  | cons a t ih =>
      intro k
      cases k with
      | zero => simp
      | succ k2 =>
          simp only [List.take_succ_cons, List.prod_cons, List.getD_cons_succ, ih k2]
          ring

lemma proj_prod (p : Nat → Bool) (tr : List Nat) :
    ∀ n, ((List.range n).map (fun d =>
        if d ∈ (List.range n).filter p then
          tr.getD (((List.range n).filter p).indexOf d) 1
        else 1)).prod =
      (tr.take ((List.range n).filter p).length).prod := by
  intro n
  induction n with
  | zero => simp
  | succ n2 ih =>
      have hF : ∀ d ∈ (List.range n2).filter p, d < n2 := by
        intro d hd
        exact List.mem_range.mp (List.mem_filter.mp hd).1
      have hn2F : n2 ∉ (List.range n2).filter p :=
        fun hc => absurd (hF n2 hc) (Nat.lt_irrefl n2)
      rw [List.range_succ, List.filter_append, List.map_append, List.prod_append]
      by_cases hp : p n2
      · have hT : List.filter p [n2] = [n2] := by simp [hp]
        rw [hT]
        have hcongr : ∀ d ∈ List.range n2,
            (if d ∈ (List.range n2).filter p ++ [n2] then
              tr.getD (((List.range n2).filter p ++ [n2]).indexOf d) 1 else 1) =
            (if d ∈ (List.range n2).filter p then
              tr.getD (((List.range n2).filter p).indexOf d) 1 else 1) := by
          intro d hd
          have hdlt : d < n2 := List.mem_range.mp hd
          by_cases hdF : d ∈ (List.range n2).filter p
          · rw [if_pos (List.mem_append.mpr (Or.inl hdF)), if_pos hdF,
              List.indexOf_append_of_mem hdF]
          · rw [if_neg ?hc, if_neg hdF]
            case hc =>
              intro hc
              rcases List.mem_append.mp hc with hcc | hcc
              · exact hdF hcc
              · rw [List.mem_singleton] at hcc; omega
        rw [List.map_congr_left hcongr, ih]
        have htail : ([n2].map (fun d =>
            if d ∈ (List.range n2).filter p ++ [n2] then
              tr.getD (((List.range n2).filter p ++ [n2]).indexOf d) 1 else 1)).prod =
            tr.getD ((List.range n2).filter p).length 1 := by
          rw [List.map_singleton, List.prod_singleton,
            if_pos (List.mem_append.mpr (Or.inr (List.mem_singleton.mpr rfl))),
            List.indexOf_append_of_not_mem hn2F, List.indexOf_cons_self, Nat.add_zero]
        rw [htail, List.length_append, List.length_singleton, take_succ_prod]
      · have hT : List.filter p [n2] = [] := by simp [hp]
        rw [hT, List.append_nil]
        have htail : ([n2].map (fun d =>
            if d ∈ (List.range n2).filter p then
              tr.getD (((List.range n2).filter p).indexOf d) 1 else 1)).prod = 1 := by
          rw [List.map_singleton, List.prod_singleton, if_neg hn2F]
        rw [htail, Nat.mul_one, ih]

lemma reinsert_length (rs : List Restriction) :
    ∀ ls, (reinsertRestricted rs ls).length = rs.length := by
  induction rs with
  | nil => intro ls; rfl
  | cons r rs2 ih =>
      intro ls
      rw [reinsertRestricted]
      by_cases hr : r ≠ Restriction.restricted
      · rw [if_pos hr, List.length_cons, ih, List.length_cons]
      · rw [if_neg hr, List.length_cons, ih, List.length_cons]

lemma reinsert_pos (rs : List Restriction) :
    ∀ ls, (∀ x ∈ ls, 1 ≤ x) → ∀ x ∈ reinsertRestricted rs ls, 1 ≤ x := by
  induction rs with
  | nil => intro ls _ x hx; cases hx
  | cons r rs2 ih =>
      intro ls hls x hx
      rw [reinsertRestricted] at hx
      by_cases hr : r ≠ Restriction.restricted
      · rw [if_pos hr] at hx
        rcases List.mem_cons.mp hx with h | h
        · subst h
          cases ls with
          | nil => exact Nat.le_refl 1
          | cons a t => exact hls a (List.mem_cons_self a t)
        · cases ls with
          | nil => exact ih [] (fun y hy => absurd hy (List.not_mem_nil y)) x h
          | cons a t =>
              exact ih t (fun y hy => hls y (List.mem_cons_of_mem a hy)) x h
      · rw [if_neg hr] at hx
        rcases List.mem_cons.mp hx with h | h
        · subst h; exact Nat.le_refl 1
        · exact ih ls hls x h

lemma reinsert_restricted_one (rs : List Restriction) :
    ∀ ls i, i < rs.length →
      rs.getD i Restriction.allowed = Restriction.restricted →
      (reinsertRestricted rs ls).getD i 0 = 1 := by
  induction rs with
  | nil => intro ls i hi _; simp at hi
  | cons r rs2 ih =>
      intro ls i hi hr
      cases i with
      | zero =>
          rw [List.getD_cons_zero] at hr
          rw [reinsertRestricted, if_neg (fun hc => hc hr), List.getD_cons_zero]
      | succ i2 =>
          rw [List.getD_cons_succ] at hr
          have hi2 : i2 < rs2.length := by
            rw [List.length_cons] at hi; omega
          rw [reinsertRestricted]
          by_cases hrr : r ≠ Restriction.restricted
          · rw [if_pos hrr, List.getD_cons_succ]
            exact ih ls.tail i2 hi2 hr
          · rw [if_neg hrr, List.getD_cons_succ]
            exact ih ls i2 hi2 hr

lemma reinsert_prod_le (rs : List Restriction) :
    ∀ ls, (∀ x ∈ ls, 1 ≤ x) → (reinsertRestricted rs ls).prod ≤ ls.prod := by
  induction rs with
  | nil => intro ls hls; exact one_le_prod_local ls hls
  | cons r rs2 ih =>
      intro ls hls
      rw [reinsertRestricted]
      by_cases hr : r ≠ Restriction.restricted
      · rw [if_pos hr, List.prod_cons]
        cases ls with
        | nil =>
            simp only [List.headD_nil, List.tail_nil, Nat.one_mul]
            exact ih [] (fun y hy => absurd hy (List.not_mem_nil y))
        | cons a t =>
            simp only [List.headD_cons, List.tail_cons, List.prod_cons]
            exact Nat.mul_le_mul_left a
              (ih t (fun y hy => hls y (List.mem_cons_of_mem a hy)))
      · rw [if_neg hr, List.prod_cons, Nat.one_mul]
        exact ih ls hls

lemma temp_entries_ge_two (shape : List Nat) (hpos : ∀ e ∈ shape, 1 ≤ e) :
    ∀ x ∈ ((List.range shape.length).filter
        (fun d => decide (shape.getD d 1 ≠ 1))).map (fun d => shape.getD d 1),
      2 ≤ x := by
  intro x hx
  rcases List.mem_map.mp hx with ⟨d, hd, rfl⟩
  have hdm := List.mem_filter.mp hd
  have hdr : d < shape.length := List.mem_range.mp hdm.1
  have hne : shape.getD d 1 ≠ 1 := by simpa using hdm.2
  have hge : 1 ≤ shape.getD d 1 := by
    rw [getD_eq_getElem_local shape 1 d hdr]
    exact hpos _ (shape.getElem_mem hdr)
  omega

lemma proj_result_spec (np : Nat) (shape tr : List Nat)
    (htr : ∀ x ∈ tr, 1 ≤ x)
    (hlen : tr.length = ((List.range shape.length).filter
        (fun d => decide (shape.getD d 1 ≠ 1))).length)
    (hprod : tr.prod ≤ np) :
    ((List.range shape.length).map (fun d =>
        if d ∈ (List.range shape.length).filter (fun d => decide (shape.getD d 1 ≠ 1)) then
          tr.getD (((List.range shape.length).filter
            (fun d => decide (shape.getD d 1 ≠ 1))).indexOf d) 1
        else 1)).length = shape.length ∧
    (∀ x ∈ (List.range shape.length).map (fun d =>
        if d ∈ (List.range shape.length).filter (fun d => decide (shape.getD d 1 ≠ 1)) then
          tr.getD (((List.range shape.length).filter
            (fun d => decide (shape.getD d 1 ≠ 1))).indexOf d) 1
        else 1), 1 ≤ x) ∧
    ((List.range shape.length).map (fun d =>
        if d ∈ (List.range shape.length).filter (fun d => decide (shape.getD d 1 ≠ 1)) then
          tr.getD (((List.range shape.length).filter
            (fun d => decide (shape.getD d 1 ≠ 1))).indexOf d) 1
        else 1)).prod ≤ np := by
  refine ⟨by simp, ?_, ?_⟩
  · intro x hx
    rcases List.mem_map.mp hx with ⟨d, _, rfl⟩
    by_cases hd : d ∈ (List.range shape.length).filter (fun d => decide (shape.getD d 1 ≠ 1))
    · rw [if_pos hd]
      exact getD1_pos tr htr _
    · rw [if_neg hd]
  · rw [proj_prod (fun d => decide (shape.getD d 1 ≠ 1)) tr shape.length]
    rw [← hlen, List.take_length]
    exact hprod

lemma d2_entry_spec (mp ts0 ts1 px : Nat) (hts0 : 1 ≤ ts0) (hts1 : 1 ≤ ts1)
    (hpx1 : 1 ≤ px) (hdvd : mp % px = 0) (hmp : 1 ≤ mp) :
    1 ≤ min px ts0 ∧ 1 ≤ min (mp / px) ts1 ∧
      min px ts0 * min (mp / px) ts1 ≤ mp := by
  have hdvd2 : px ∣ mp := Nat.dvd_of_mod_eq_zero hdvd
  have hpxle : px ≤ mp := Nat.le_of_dvd hmp hdvd2
  have hpy : 1 ≤ mp / px := Nat.div_pos hpxle hpx1
  refine ⟨le_min hpx1 hts0, le_min hpy hts1, ?_⟩
  calc min px ts0 * min (mp / px) ts1 ≤ px * (mp / px) :=
        Nat.mul_le_mul (min_le_left px ts0) (min_le_left (mp / px) ts1)
    _ = mp := Nat.mul_div_cancel' hdvd2

lemma natSqrt_ceil_le (mp nx ny : Nat) (hmp : 2 ≤ mp) (hxy : nx ≤ ny) (hny : 1 ≤ ny) :
    (if natSqrt (mp * nx / ny) * natSqrt (mp * nx / ny) * ny = mp * nx then
      natSqrt (mp * nx / ny)
    else natSqrt (mp * nx / ny) + 1) ≤ mp := by
  have hq : mp * nx / ny ≤ mp := by
    calc mp * nx / ny ≤ mp * ny / ny := Nat.div_le_div_right (Nat.mul_le_mul_left mp hxy)
      _ = mp := Nat.mul_div_cancel mp hny
  have hs := natSqrtAux_le_or (mp * nx / ny) (mp * nx / ny)
  rcases hs with hs0 | hs2
  · rw [natSqrt, hs0]
    split
    · omega
    · omega
  · have hslt : natSqrt (mp * nx / ny) < mp := by
      by_contra hge
      push_neg at hge
      have h1 : mp * mp ≤ natSqrt (mp * nx / ny) * natSqrt (mp * nx / ny) :=
        Nat.mul_le_mul hge hge
      have h2 : mp * mp ≤ mp := le_trans h1 (le_trans hs2 hq)
      have h4 : mp * 2 ≤ mp * mp := Nat.mul_le_mul_left mp hmp
      omega
    split
    · omega
    · omega

lemma if_prop_holds (P : Nat → Prop) {c : Prop} [Decidable c] {a b : Nat}
    (ha : P a) (hb : P b) : P (if c then a else b) := by
  split
  · exact ha
  · exact hb

lemma twoDimLaunch_spec (mp ts0 ts1 : Nat) (hmp : 2 ≤ mp) (h0 : 1 ≤ ts0)
    (h1 : 1 ≤ ts1) :
    (twoDimLaunch mp ts0 ts1).length = 2 ∧
    (∀ x ∈ twoDimLaunch mp ts0 ts1, 1 ≤ x) ∧
    (twoDimLaunch mp ts0 ts1).prod ≤ mp := by
  rw [twoDimLaunch]
  by_cases hswap : ts1 < ts0
  · simp only [hswap, if_true]
    have hceil := natSqrt_ceil_le mp ts1 ts0 hmp (le_of_lt hswap) h0
    have hn1 := decToDiv_spec mp (max (natSqrt (mp * ts1 / ts0)) 1)
      (le_max_right (natSqrt (mp * ts1 / ts0)) 1)
    have hn2 := incToDiv_spec mp
      (if natSqrt (mp * ts1 / ts0) * natSqrt (mp * ts1 / ts0) * ts0 = mp * ts1 then
        natSqrt (mp * ts1 / ts0) else natSqrt (mp * ts1 / ts0) + 1) hceil (by omega)
    have key : ∀ px, 1 ≤ px → mp % px = 0 →
        ([min (mp / px) ts0, min px ts1].length = 2 ∧
         (∀ x ∈ [min (mp / px) ts0, min px ts1], 1 ≤ x) ∧
         ([min (mp / px) ts0, min px ts1]).prod ≤ mp) := by
      intro px hp hd
      have hspec := d2_entry_spec mp ts1 ts0 px h1 h0 hp hd (by omega)
      refine ⟨rfl, ?_, ?_⟩
      · intro x hx
        rcases List.mem_cons.mp hx with hx1 | hx1
        · subst hx1; exact hspec.2.1
        · rcases List.mem_cons.mp hx1 with hx2 | hx2
          · subst hx2; exact hspec.1
          · cases hx2
      · calc ([min (mp / px) ts0, min px ts1]).prod
            = min (mp / px) ts0 * min px ts1 := by
              simp [List.prod_cons, List.prod_singleton]
          _ = min px ts1 * min (mp / px) ts0 := Nat.mul_comm _ _
          _ ≤ mp := hspec.2.2
    exact key _ (if_prop_holds (fun x => 1 ≤ x) hn1.1 hn2.1)
      (if_prop_holds (fun x => mp % x = 0) hn1.2 hn2.2)
  · simp only [hswap, if_false]
    have hxy : ts0 ≤ ts1 := Nat.le_of_not_lt hswap
    have hceil := natSqrt_ceil_le mp ts0 ts1 hmp hxy h1
    have hn1 := decToDiv_spec mp (max (natSqrt (mp * ts0 / ts1)) 1)
      (le_max_right (natSqrt (mp * ts0 / ts1)) 1)
    have hn2 := incToDiv_spec mp
      (if natSqrt (mp * ts0 / ts1) * natSqrt (mp * ts0 / ts1) * ts1 = mp * ts0 then
        natSqrt (mp * ts0 / ts1) else natSqrt (mp * ts0 / ts1) + 1) hceil (by omega)
    have key : ∀ px, 1 ≤ px → mp % px = 0 →
        ([min px ts0, min (mp / px) ts1].length = 2 ∧
         (∀ x ∈ [min px ts0, min (mp / px) ts1], 1 ≤ x) ∧
         ([min px ts0, min (mp / px) ts1]).prod ≤ mp) := by
      intro px hp hd
      have hspec := d2_entry_spec mp ts0 ts1 px h0 h1 hp hd (by omega)
      refine ⟨rfl, ?_, ?_⟩
      · intro x hx
        rcases List.mem_cons.mp hx with hx1 | hx1
        · subst hx1; exact hspec.1
        · rcases List.mem_cons.mp hx1 with hx2 | hx2
          · subst hx2; exact hspec.2.1
          · cases hx2
      · calc ([min px ts0, min (mp / px) ts1]).prod
            = min px ts0 * min (mp / px) ts1 := by
              simp [List.prod_cons, List.prod_singleton]
          _ ≤ mp := hspec.2.2
    exact key _ (if_prop_holds (fun x => 1 ≤ x) hn1.1 hn2.1)
      (if_prop_holds (fun x => mp % x = 0) hn1.2 hn2.2)

lemma innerTempResult_spec (np : Nat) (ts : List Nat) (hnp2 : 2 ≤ np)
    (hts : ∀ x ∈ ts, 2 ≤ x) :
    (innerTempResult np ts ts.prod (pieceFactors np)).length = ts.length ∧
    (∀ x ∈ innerTempResult np ts ts.prod (pieceFactors np), 1 ≤ x) ∧
    (innerTempResult np ts ts.prod (pieceFactors np)).prod ≤ np := by
  rw [innerTempResult]
  by_cases h1 : ts.length = 1
  · rw [if_pos h1]
    have h0 : 2 ≤ ts.getD 0 0 := by
      rw [getD_eq_getElem_local ts 0 0 (by omega)]
      exact hts _ (ts.getElem_mem (by omega))
    refine ⟨by rw [List.length_singleton, h1], ?_, ?_⟩
    · intro x hx
      rw [List.mem_singleton] at hx
      subst hx
      omega
    · rw [List.prod_singleton]
      exact min_le_right _ _
  · rw [if_neg h1]
    by_cases h2 : ts.length = 2
    · rw [if_pos h2]
      by_cases h3 : ts.prod < np
      · rw [if_pos h3]
        exact ⟨rfl, fun x hx => by have := hts x hx; omega, Nat.le_of_lt h3⟩
      · rw [if_neg h3]
        have h00 : 2 ≤ ts.getD 0 0 := by
          rw [getD_eq_getElem_local ts 0 0 (by omega)]
          exact hts _ (ts.getElem_mem (by omega))
        have h11 : 2 ≤ ts.getD 1 0 := by
          rw [getD_eq_getElem_local ts 0 1 (by omega)]
          exact hts _ (ts.getElem_mem (by omega))
        have hspec := twoDimLaunch_spec np (ts.getD 0 0) (ts.getD 1 0) hnp2
          (by omega) (by omega)
        exact ⟨by rw [hspec.1, h2], hspec.2.1, hspec.2.2⟩
    · rw [if_neg h2]
      refine ⟨?_, ?_, ?_⟩
      · rw [placeFactors_length, List.length_map]
      · exact placeFactors_pos ts np (pieceFactors np) (ts.map (fun _ => 1)) 1
          (fun f hf => by have := pieceFactors_ge_two np f hf; omega)
          (fun x hx => by rcases List.mem_map.mp hx with ⟨_, _, rfl⟩; exact Nat.le_refl 1)
      · refine placeFactors_prod_le ts np (pieceFactors np) (ts.map (fun _ => 1)) 1
          (fun f hf => by have := pieceFactors_ge_two np f hf; omega) ?_ (by omega)
        rw [List.prod_eq_one]
        intro x hx
        rcases List.mem_map.mp hx with ⟨_, _, rfl⟩
        rfl

lemma projectResult_spec (np : Nat) (shape tr : List Nat)
    (htr : ∀ x ∈ tr, 1 ≤ x)
    (hlen : tr.length = ((List.range shape.length).filter
        (fun d => decide (shape.getD d 1 ≠ 1))).length)
    (hprod : tr.prod ≤ np) :
    (projectResult shape ((List.range shape.length).filter
        (fun d => decide (shape.getD d 1 ≠ 1))) tr).length = shape.length ∧
    (∀ x ∈ projectResult shape ((List.range shape.length).filter
        (fun d => decide (shape.getD d 1 ≠ 1))) tr, 1 ≤ x) ∧
    (projectResult shape ((List.range shape.length).filter
        (fun d => decide (shape.getD d 1 ≠ 1))) tr).prod ≤ np := by
  rw [projectResult]
  exact proj_result_spec np shape tr htr hlen hprod

lemma inner_spec (np msv : Nat) (shape ls : List Nat)
    (hnp : 1 ≤ np) (hpos : ∀ e ∈ shape, 1 ≤ e)
    (h : compute_launch_shape_inner np msv shape = some ls) :
    ls.length = shape.length ∧ (∀ x ∈ ls, 1 ≤ x) ∧ ls.prod ≤ np := by
  rw [compute_launch_shape_inner] at h
  by_cases h1 : np = 1
  · rw [if_pos h1] at h; cases h
  rw [if_neg h1] at h
  by_cases h2 : shape.all (fun ext => ext ≤ 1)
  · rw [if_pos h2] at h; cases h
  rw [if_neg h2] at h
  have hnp2 : 2 ≤ np := by
    rcases Nat.lt_or_ge np 2 with hc | hc
    · have : np = 0 ∨ np = 1 := by omega
      rcases this with hc2 | hc2
      · omega
      · exact absurd hc2 h1
    · exact hc
  dsimp only at h
  set F := (List.range shape.length).filter (fun d => decide (shape.getD d 1 ≠ 1)) with hF
  set ts := F.map (fun d => shape.getD d 1) with hts
  by_cases h3 : (ts.prod + msv - 1) / msv = 1
  · rw [if_pos h3] at h; cases h
  rw [if_neg h3] at h
  by_cases h4 : ts.length = 0
  · rw [if_pos h4] at h
    have hls : ls = shape.map (fun _ => 1) := (Option.some.inj h).symm
    subst hls
    refine ⟨by rw [List.length_map], ?_, ?_⟩
    · intro x hx
      rcases List.mem_map.mp hx with ⟨_, _, rfl⟩
      exact Nat.le_refl 1
    · have hone : (shape.map (fun _ => (1 : Nat))).prod = 1 := by
        rw [List.prod_eq_one]
        intro x hx
        rcases List.mem_map.mp hx with ⟨_, _, rfl⟩
        rfl
      rw [hone]
      omega
  · rw [if_neg h4] at h
    have hls : ls = projectResult shape F (innerTempResult np ts ts.prod (pieceFactors np)) :=
      (Option.some.inj h).symm
    subst hls
    have htsge : ∀ x ∈ ts, 2 ≤ x := by
      rw [hts, hF]
      exact temp_entries_ge_two shape hpos
    have hitr := innerTempResult_spec np ts hnp2 htsge
    have hlen2 : (innerTempResult np ts ts.prod (pieceFactors np)).length = F.length := by
      rw [hitr.1, hts, List.length_map]
    rw [hF]
    exact projectResult_spec np shape _ hitr.2.1 (by rw [hlen2, hF]) hitr.2.2

/-- C2 (amended): whenever `compute_launch_shape` returns a shape, it has
one component per dimension, every component is at least 1, RESTRICTED
dimensions get exactly 1, and the product of the components is at most
`num_pieces`.  The per-component upper bound by the extent claimed by the
spec fails in the `d >= 3` branch (see the counterexample) and is
dropped. -/
theorem C2_launch_shape_bounds (np msv : Nat) (shape : List Nat)
    (restrictions : List Restriction) (ls : List Nat)
    (hnp : 1 ≤ np)
    (hlen : restrictions.length = shape.length)
    (hpos : ∀ e ∈ shape, 1 ≤ e)
    (h : compute_launch_shape np msv shape restrictions = some ls) :
    ls.length = shape.length ∧
    (∀ i, i < ls.length → 1 ≤ ls.getD i 0) ∧
    (∀ i, i < ls.length →
      restrictions.getD i Restriction.allowed = Restriction.restricted →
      ls.getD i 0 = 1) ∧
    ls.prod ≤ np := by
  rw [compute_launch_shape] at h
  cases hinner : compute_launch_shape_inner np msv
      ((List.zip shape restrictions).filterMap
        (fun p => if p.2 ≠ Restriction.restricted then some p.1 else none)) with
  | none => rw [hinner] at h; cases h
  | some inner =>
      rw [hinner] at h
      have hls : ls = reinsertRestricted restrictions inner := (Option.some.inj h).symm
      subst hls
      have hposf : ∀ e ∈ (List.zip shape restrictions).filterMap
          (fun p => if p.2 ≠ Restriction.restricted then some p.1 else none), 1 ≤ e := by
        intro e he
        rcases List.mem_filterMap.mp he with ⟨p, hp, hpe⟩
        by_cases hc : p.2 ≠ Restriction.restricted
        · rw [if_pos hc] at hpe
          cases hpe
          exact hpos p.1 (List.of_mem_zip hp).1
        · rw [if_neg hc] at hpe; cases hpe
      have hspec := inner_spec np msv _ inner hnp hposf hinner
      refine ⟨?_, ?_, ?_, ?_⟩
      · rw [reinsert_length, hlen]
      · intro i hi
        rw [getD_eq_getElem_local _ 0 i hi]
        exact reinsert_pos restrictions inner hspec.2.1 _ (List.getElem_mem hi)
      · intro i hi hr
        refine reinsert_restricted_one restrictions inner i ?_ hr
        rw [← reinsert_length restrictions inner]
        exact hi
      · exact le_trans (reinsert_prod_le restrictions inner hspec.2.1) hspec.2.2

/-- C2 witness: the amended theorem applied at the concrete configuration
of the spec scenario (`num_pieces = 4`, shape `(100, 100)`, both dimensions
ALLOWED, result `(2, 2)`). -/
theorem C2_launch_shape_bounds_witness :
    [2, 2].length = [100, 100].length ∧
    (∀ i, i < [2, 2].length → 1 ≤ [2, 2].getD i 0) ∧
    (∀ i, i < [2, 2].length →
      [Restriction.allowed, Restriction.allowed].getD i Restriction.allowed =
        Restriction.restricted →
      [2, 2].getD i 0 = 1) ∧
    [2, 2].prod ≤ 4 :=
  C2_launch_shape_bounds 4 1 [100, 100]
    [Restriction.allowed, Restriction.allowed] [2, 2]
    (by decide) (by decide) (by decide) (by decide)

/-! ### FusionChecker.can_fuse and the constraint chain (runtime.py)

The constraints consult per-op data through the strategies and stores; those
attributes are abstracted as functions of the op index: `taskId i` is
`ops[i]._task_id`, `shapes i` is `strategies[i]._launch_shape` (launch
shapes, matrices, buffers and stores are coded as natural numbers, only
their equality matters), `cands i` lists the `(buffer, projection matrix)`
candidates of op `i` in iteration order (inputs then outputs, `none` when
the projection has no `part` attribute), `inputs i`/`outputs i` are the
store lists and `root` follows `_parent` pointers to the root store. -/

/-- The `validIDs` set built in `AllValidOps.__init__` (binary op, fill,
unary op). -/
def allValidIDs : List Nat := [2, 10, 21]

/-- The `terminals` set of `AllValidOps.__init__`: created empty and never
extended. -/
def allValidTerminals : List Nat := []

/-- The while loop of `AllValidOps.apply` over one base interval, emitting
maximal runs of allowlisted ops. -/
def avoLoop (results terminal : Nat → Bool) (e : Nat) :
    Nat → Nat → List (Nat × Nat) → List (Nat × Nat)
  | start, end_, acc =>
    if _h : end_ < e then
      if results end_ && !terminal end_ then
        avoLoop results terminal e start (end_ + 1) acc
      else
        if _hlt : start < end_ then
          if terminal end_ then
            avoLoop results terminal e (end_ + 1) (end_ + 1) (acc ++ [(start, end_ + 1)])
          else
            avoLoop results terminal e end_ end_ (acc ++ [(start, end_)])
        else
          avoLoop results terminal e (start + 1) (start + 1) (acc ++ [(start, start + 1)])
    else acc ++ (if start < end_ then [(start, end_)] else [])
termination_by start end_ _acc => 2 * (e - end_) + (if start < end_ then 1 else 0)
decreasing_by
  all_goals simp_wf
  all_goals split_ifs <;> omega

/-- Embeds `AllValidOps.apply`. -/
def allValidOpsApply (taskId : Nat → Nat) (baseIntervals : List (Nat × Nat)) :
    List (Nat × Nat) :=
  let results := fun i => allValidIDs.contains (taskId i)
  let terminal := fun i => allValidTerminals.contains (taskId i)
  baseIntervals.foldl (fun acc iv => avoLoop results terminal iv.2 iv.1 iv.1 acc) []

/-- The while loop of `IdenticalLaunchShapes.apply` over one base interval,
splitting at any launch-shape mismatch (the `None`-vs-shape cases spelled
out as in the source). -/
def ilsLoop (shapes : Nat → Option Nat) (e : Nat) :
    Nat → Nat → List (Nat × Nat) → List (Nat × Nat)
  | start, i, acc =>
    if _h : i < e then
      let leftNone := (shapes i).isNone && (shapes (i - 1)).isSome
      let rightNone := (shapes (i - 1)).isNone && (shapes i).isSome
      if leftNone || rightNone || decide (shapes i ≠ shapes (i - 1)) then
        ilsLoop shapes e i (i + 1) (acc ++ [(start, i)])
      else ilsLoop shapes e start (i + 1) acc
    else acc ++ (if start < e then [(start, e)] else [])
termination_by _start i _acc => e - i
decreasing_by
  all_goals simp_wf
  all_goals omega

/-- Embeds `IdenticalLaunchShapes.apply`. -/
def identicalLaunchShapesApply (shapes : Nat → Option Nat)
    (baseIntervals : List (Nat × Nat)) : List (Nat × Nat) :=
  baseIntervals.foldl (fun acc iv => ilsLoop shapes iv.2 iv.1 (iv.1 + 1) acc) []

/-- Association-list lookup standing for a Python dict lookup. -/
def lookupA (l : List (Nat × Nat)) (key : Nat) : Option Nat :=
  match l with
  | [] => none
  | p :: rest => if p.1 = key then some p.2 else lookupA rest key

/-- The `bufferSet` dict of one op in `IdenticalProjection.apply`: walk the
candidates in order, keep the first projection per buffer, and only those
whose projection has a `part` attribute. -/
def buildBufferSet (cands : List (Nat × Option Nat)) : List (Nat × Nat) :=
  cands.foldl
    (fun bs c =>
      if bs.any (fun p => decide (p.1 = c.1)) then bs
      else
        match c.2 with
        | some m => bs ++ [(c.1, m)]
        | none => bs)
    []

/-- Loop state of `IdenticalProjection.apply`: the cross-interval
`store_to_ops` dict, the current `start`, the cursor `i` and the emitted
intervals. -/
structure ProjState where
  sto : List (Nat × Nat)
  start : Nat
  i : Nat
  acc : List (Nat × Nat)

/-- The `for buffer in bufferSet` loop of one op: record unseen buffers,
and on a transform mismatch emit `(start, i)`, reset `store_to_ops` and
advance (the source `continue` stays inside this for loop). -/
def projBufLoop : List (Nat × Nat) → ProjState → ProjState
  | [], st => st
  | (buf, m) :: rest, st =>
      match lookupA st.sto buf with
      | none => projBufLoop rest { st with sto := st.sto ++ [(buf, m)] }
      | some m0 =>
          if m ≠ m0 then
            projBufLoop rest ⟨[], st.i, st.i + 1, st.acc ++ [(st.start, st.i)]⟩
          else projBufLoop rest st

lemma projBufLoop_i_mono : ∀ (bs : List (Nat × Nat)) (st : ProjState),
    st.i ≤ (projBufLoop bs st).i := by
  intro bs
  induction bs with
  | nil => intro st; exact Nat.le_refl _
  | cons c rest ih =>
      intro st
      rw [projBufLoop]
      cases hl : lookupA st.sto c.1 with
      | none =>
          dsimp only
          exact ih { st with sto := st.sto ++ [(c.1, c.2)] }
      | some m0 =>
          dsimp only
          by_cases hm : c.2 ≠ m0
          · rw [if_pos hm]
            exact Nat.le_trans (Nat.le_succ st.i)
              (ih ⟨[], st.i, st.i + 1, st.acc ++ [(st.start, st.i)]⟩)
          · rw [if_neg hm]
            exact ih st

/-- The while loop of `IdenticalProjection.apply` over one base interval
(`i == 0` is skipped: "we only iterate from i==1 onwards"). -/
def projLoop (cands : Nat → List (Nat × Option Nat)) (e : Nat)
    (st : ProjState) : ProjState :=
  if _h : st.i < e then
    if st.i = 0 then projLoop cands e { st with i := st.i + 1 }
    else
      let st2 := projBufLoop (buildBufferSet (cands st.i)) st
      projLoop cands e { st2 with i := st2.i + 1 }
  else st
termination_by e - st.i
decreasing_by
  · simp_wf; omega
  · simp_wf
    have hmono := projBufLoop_i_mono (buildBufferSet (cands st.i)) st
    omega

/-- Embeds `IdenticalProjection.apply`: `store_to_ops` and the emitted
intervals persist across base intervals, `start` and `i` are reset per
interval, and a trailing `(start, end)` is appended when `start < end`. -/
def identicalProjectionApply (cands : Nat → List (Nat × Option Nat))
    (baseIntervals : List (Nat × Nat)) : List (Nat × Nat) :=
  (baseIntervals.foldl
    (fun st iv =>
      let st2 := projLoop cands iv.2 { st with start := iv.1, i := iv.1 }
      if st2.start < iv.2 then { st2 with acc := st2.acc ++ [(st2.start, iv.2)] }
      else st2)
    ⟨[], 0, 0, []⟩).acc

/-- Loop state of `ValidProducerConsumer.apply`: the `childMap` of
registered producer views, `start`, the cursor `i` (not reset between base
intervals) and the emitted intervals. -/
structure VpcState where
  childMap : List (Nat × Nat)
  start : Nat
  i : Nat
  acc : List (Nat × Nat)

/-- The while loop of `ValidProducerConsumer.apply`: a consumer whose view
of a root differs from the registered producer view splits the interval and
resets the map; afterwards the op's outputs register their views. -/
def vpcLoop (inputs outputs : Nat → List Nat) (root : Nat → Nat) (e : Nat)
    (st : VpcState) : VpcState :=
  if h : st.i < e then
    let isSame := (inputs st.i).all (fun inp =>
      match lookupA st.childMap (root inp) with
      | none => true
      | some v => decide (v = inp))
    let cmA := if isSame then st.childMap else []
    let startA := if isSame then st.start else st.i
    let accA := if isSame then st.acc else st.acc ++ [(st.start, st.i)]
    let cm2 := (outputs st.i).foldl
      (fun m out => if (lookupA m (root out)).isNone then m ++ [(root out, out)] else m)
      cmA
    vpcLoop inputs outputs root e ⟨cm2, startA, st.i + 1, accA⟩
  else st
termination_by e - st.i
decreasing_by
  simp_wf; omega

/-- Embeds `ValidProducerConsumer.apply`. -/
def validProducerConsumerApply (inputs outputs : Nat → List Nat)
    (root : Nat → Nat) (baseIntervals : List (Nat × Nat)) : List (Nat × Nat) :=
  (baseIntervals.foldl
    (fun st iv =>
      let st2 := vpcLoop inputs outputs root iv.2 { st with start := iv.1 }
      if st2.start < iv.2 then { st2 with acc := st2.acc ++ [(st2.start, iv.2)] }
      else st2)
    ⟨[], 0, 0, []⟩).acc

/-- Embeds `FusionChecker.can_fuse` composed with the constraint chain
registered in `Runtime.build_fused_op` (AllValidOps, IdenticalLaunchShapes,
IdenticalProjection, ValidProducerConsumer, in that order), seeded with
`[(0, len(ops))]` and finished by `supress_small_fusions` with the
runtime's `_fusion_threshold = 2`. -/
def canFuseIntervals (taskId : Nat → Nat) (shapes : Nat → Option Nat)
    (cands : Nat → List (Nat × Option Nat)) (inputs outputs : Nat → List Nat)
    (root : Nat → Nat) (n : Nat) : List (Int × Int) :=
  let w1 := allValidOpsApply taskId [(0, n)]
  let w2 := identicalLaunchShapesApply shapes w1
  let w3 := identicalProjectionApply cands w2
  let w4 := validProducerConsumerApply inputs outputs root w3
  (supress_small_fusions (w4.map (fun p => ((p.1 : Int), (p.2 : Int)))) 2).2

/-- Contiguous interval chains over Nat: the intervals in the list follow
each other without gap from `s` to `e` (each may be empty). -/
def ChainN : Nat → List (Nat × Nat) → Nat → Prop
  | s, [], e => s = e
  | s, p :: rest, e => p.1 = s ∧ s ≤ p.2 ∧ ChainN p.2 rest e

/-- Contiguous interval chains over Int. -/
def ChainZ : Int → List (Int × Int) → Int → Prop
  | s, [], e => s = e
  | s, p :: rest, e => p.1 = s ∧ s ≤ p.2 ∧ ChainZ p.2 rest e

lemma chainN_append {l1 : List (Nat × Nat)} :
    ∀ {s m e : Nat} {l2 : List (Nat × Nat)},
      ChainN s l1 m → ChainN m l2 e → ChainN s (l1 ++ l2) e := by
  induction l1 with
  | nil =>
      intro s m e l2 h1 h2
      rw [ChainN] at h1
      subst h1
      simpa using h2
  | cons p rest ih =>
      intro s m e l2 h1 h2
      obtain ⟨hp, hle, hr⟩ := h1
      exact ⟨hp, hle, ih hr h2⟩

lemma chainN_snoc {s a b : Nat} {acc : List (Nat × Nat)}
    (h : ChainN s acc a) (hab : a ≤ b) : ChainN s (acc ++ [(a, b)]) b :=
  chainN_append h ⟨rfl, hab, rfl⟩

lemma avoLoop_chain (R T : Nat → Bool) (e : Nat) :
    ∀ (n start end_ : Nat) (acc : List (Nat × Nat)) (s : Nat),
      2 * (e - end_) + (end_ - start) ≤ n →
      ChainN s acc start → start ≤ end_ → end_ ≤ e →
      ChainN s (avoLoop R T e start end_ acc) e := by
  intro n
  induction n with
  | zero =>
      intro start end_ acc s hm hc hse hee
      have h1 : end_ = e := by omega
      rw [avoLoop, dif_neg (by omega)]
      have h2 : ¬start < end_ := by omega
      rw [if_neg h2, List.append_nil]
      have h3 : start = e := by omega
      rw [← h3]
      exact hc
  | succ n2 ih =>
      intro start end_ acc s hm hc hse hee
      rw [avoLoop]
      by_cases h : end_ < e
      · rw [dif_pos h]
        by_cases hr : R end_ && !T end_
        · rw [if_pos hr]
          exact ih start (end_ + 1) acc s (by omega) hc (by omega) (by omega)
        · rw [if_neg hr]
          by_cases hlt : start < end_
          · rw [dif_pos hlt]
            by_cases ht : T end_
            · rw [if_pos ht]
              exact ih (end_ + 1) (end_ + 1) _ s (by omega)
                (chainN_snoc hc (by omega)) (Nat.le_refl _) (by omega)
            · rw [if_neg ht]
              exact ih end_ end_ _ s (by omega)
                (chainN_snoc hc (Nat.le_of_lt hlt)) (Nat.le_refl _) hee
          · rw [dif_neg hlt]
            exact ih (start + 1) (start + 1) _ s (by omega)
              (chainN_snoc hc (by omega)) (Nat.le_refl _) (by omega)
      · rw [dif_neg h]
        have h1 : end_ = e := by omega
        by_cases hlt : start < end_
        · rw [if_pos hlt]
          rw [← h1]
          exact chainN_snoc hc (Nat.le_of_lt hlt)
        · rw [if_neg hlt, List.append_nil]
          have h3 : start = e := by omega
          rw [← h3]
          exact hc

lemma ilsLoop_chain (shapes : Nat → Option Nat) (e : Nat) :
    ∀ (n start i : Nat) (acc : List (Nat × Nat)) (s : Nat),
      e - i ≤ n →
      ChainN s acc start → start ≤ e → start < i →
      ChainN s (ilsLoop shapes e start i acc) e := by
  intro n
  induction n with
  | zero =>
      intro start i acc s hm hc hse hsi
      rw [ilsLoop, dif_neg (by omega)]
      by_cases hlt : start < e
      · rw [if_pos hlt]
        exact chainN_snoc hc (Nat.le_of_lt hlt)
      · rw [if_neg hlt, List.append_nil]
        have h3 : start = e := by omega
        rw [← h3]
        exact hc
  | succ n2 ih =>
      intro start i acc s hm hc hse hsi
      rw [ilsLoop]
      by_cases h : i < e
      · rw [dif_pos h]
        dsimp only
        split
        · exact ih i (i + 1) _ s (by omega)
            (chainN_snoc hc (by omega)) (by omega) (by omega)
        · exact ih start (i + 1) acc s (by omega) hc hse (by omega)
      · rw [dif_neg h]
        by_cases hlt : start < e
        · rw [if_pos hlt]
          exact chainN_snoc hc (Nat.le_of_lt hlt)
        · rw [if_neg hlt, List.append_nil]
          have h3 : start = e := by omega
          rw [← h3]
          exact hc

lemma lookupA_some_mem {l : List (Nat × Nat)} {k v : Nat}
    (h : lookupA l k = some v) : ∃ q ∈ l, q.1 = k := by
  induction l with
  | nil => simp [lookupA] at h
  | cons p rest ih =>
      rw [lookupA] at h
      by_cases hp : p.1 = k
      · exact ⟨p, List.mem_cons_self p rest, hp⟩
      · rw [if_neg hp] at h
        obtain ⟨q, hq, hqk⟩ := ih h
        exact ⟨q, List.mem_cons_of_mem p hq, hqk⟩

lemma buildBufferSet_nodup_aux :
    ∀ (cands : List (Nat × Option Nat)) (bs : List (Nat × Nat)),
      (bs.map Prod.fst).Nodup →
      ((cands.foldl
          (fun bs c =>
            if bs.any (fun p => decide (p.1 = c.1)) then bs
            else
              match c.2 with
              | some m => bs ++ [(c.1, m)]
              | none => bs)
          bs).map Prod.fst).Nodup := by
  intro cands
  induction cands with
  | nil => intro bs h; simpa using h
  | cons c rest ih =>
      intro bs h
      rw [List.foldl_cons]
      by_cases hany : bs.any (fun p => decide (p.1 = c.1))
      · rw [if_pos hany]
        exact ih bs h
      · rw [if_neg hany]
        cases hc2 : c.2 with
        | none => exact ih bs h
        | some m =>
            refine ih (bs ++ [(c.1, m)]) ?_
            rw [List.map_append, List.map_singleton]
            rw [List.nodup_append]
            refine ⟨h, List.nodup_singleton _, ?_⟩
            intro a ha hb
            rw [List.mem_singleton] at hb
            subst hb
            obtain ⟨p, hp, hpk⟩ := List.mem_map.mp ha
            have hany2 : ∀ x : Nat, (c.1, x) ∉ bs := by simpa using hany
            exact hany2 p.2 (by rw [← hpk]; exact hp)

lemma buildBufferSet_nodup (cands : List (Nat × Option Nat)) :
    ((buildBufferSet cands).map Prod.fst).Nodup :=
  buildBufferSet_nodup_aux cands [] (by simp)

lemma projBufLoop_no_mismatch :
    ∀ (bs : List (Nat × Nat)) (st : ProjState),
      (∀ p ∈ bs, ∀ q ∈ st.sto, q.1 ≠ p.1) →
      (bs.map Prod.fst).Nodup →
      ∃ sto2, projBufLoop bs st = ⟨sto2, st.start, st.i, st.acc⟩ := by
  intro bs
  induction bs with
  | nil => intro st _ _; exact ⟨st.sto, rfl⟩
  | cons c rest ih =>
      intro st hdisj hnd
      rw [projBufLoop]
      cases hl : lookupA st.sto c.1 with
      | some m0 =>
          obtain ⟨q, hq, hqk⟩ := lookupA_some_mem hl
          exact absurd hqk (hdisj c (List.mem_cons_self c rest) q hq)
      | none =>
          dsimp only
          refine ih { st with sto := st.sto ++ [(c.1, c.2)] } ?_ ?_
          · intro p hp q hq
            rw [List.mem_append] at hq
            cases hq with
            | inl hq => exact hdisj p (List.mem_cons_of_mem c hp) q hq
            | inr hq =>
                rw [List.mem_singleton] at hq
                subst hq
                have hc1 : c.1 ∉ rest.map Prod.fst := by
                  rw [List.map_cons, List.nodup_cons] at hnd
                  exact hnd.1
                intro he
                exact hc1 (he ▸ List.mem_map_of_mem Prod.fst hp)
          · rw [List.map_cons, List.nodup_cons] at hnd
            exact hnd.2

lemma projBufLoop_cases :
    ∀ (bs : List (Nat × Nat)) (st : ProjState),
      (bs.map Prod.fst).Nodup →
      (∃ sto2, projBufLoop bs st = ⟨sto2, st.start, st.i, st.acc⟩) ∨
      (∃ sto2, projBufLoop bs st =
        ⟨sto2, st.i, st.i + 1, st.acc ++ [(st.start, st.i)]⟩) := by
  intro bs
  induction bs with
  | nil => intro st _; exact Or.inl ⟨st.sto, rfl⟩
  | cons c rest ih =>
      intro st hnd
      rw [projBufLoop]
      have hnd2 : (rest.map Prod.fst).Nodup := by
        rw [List.map_cons, List.nodup_cons] at hnd
        exact hnd.2
      cases hl : lookupA st.sto c.1 with
      | none =>
          dsimp only
          exact ih { st with sto := st.sto ++ [(c.1, c.2)] } hnd2
      | some m0 =>
          dsimp only
          by_cases hm : c.2 ≠ m0
          · rw [if_pos hm]
            obtain ⟨sto2, heq⟩ :=
              projBufLoop_no_mismatch rest
                ⟨[], st.i, st.i + 1, st.acc ++ [(st.start, st.i)]⟩
                (by intro p _ q hq; simp at hq) hnd2
            exact Or.inr ⟨sto2, heq⟩
          · rw [if_neg hm]
            exact ih st hnd2

lemma projLoop_chain (cands : Nat → List (Nat × Option Nat)) (e : Nat) :
    ∀ (n : Nat) (st : ProjState) (s : Nat),
      e - st.i ≤ n →
      ChainN s st.acc st.start → st.start ≤ st.i → st.start ≤ e →
      ChainN s (projLoop cands e st).acc (projLoop cands e st).start ∧
        (projLoop cands e st).start ≤ e := by
  intro n
  induction n with
  | zero =>
      intro st s hm hc hsi hse
      rw [projLoop, dif_neg (by omega)]
      exact ⟨hc, hse⟩
  | succ n2 ih =>
      intro st s hm hc hsi hse
      rw [projLoop]
      by_cases h : st.i < e
      · rw [dif_pos h]
        by_cases h0 : st.i = 0
        · rw [if_pos h0]
          refine ih { st with i := st.i + 1 } s ?_ hc ?_ hse
          · show e - (st.i + 1) ≤ n2
            omega
          · show st.start ≤ st.i + 1
            omega
        · rw [if_neg h0]
          dsimp only
          rcases projBufLoop_cases (buildBufferSet (cands st.i)) st
              (buildBufferSet_nodup (cands st.i)) with
            ⟨sto2, heq⟩ | ⟨sto2, heq⟩
          · rw [heq]
            refine ih ⟨sto2, st.start, st.i + 1, st.acc⟩ s ?_ hc ?_ hse
            · show e - (st.i + 1) ≤ n2
              omega
            · show st.start ≤ st.i + 1
              omega
          · rw [heq]
            refine ih ⟨sto2, st.i, st.i + 2, st.acc ++ [(st.start, st.i)]⟩ s
              ?_ (chainN_snoc hc hsi) ?_ ?_
            · show e - (st.i + 2) ≤ n2
              omega
            · show st.i ≤ st.i + 2
              omega
            · show st.i ≤ e
              omega
      · rw [dif_neg h]
        exact ⟨hc, hse⟩

lemma vpcLoop_spec (inputs outputs : Nat → List Nat) (root : Nat → Nat)
    (e : Nat) :
    ∀ (n : Nat) (st : VpcState) (s : Nat),
      e - st.i ≤ n →
      ChainN s st.acc st.start → st.start ≤ st.i → st.i ≤ e →
      ChainN s (vpcLoop inputs outputs root e st).acc
          (vpcLoop inputs outputs root e st).start ∧
        (vpcLoop inputs outputs root e st).start ≤ e ∧
        (vpcLoop inputs outputs root e st).i = e := by
  intro n
  induction n with
  | zero =>
      intro st s hm hc hsi hie
      rw [vpcLoop, dif_neg (by omega)]
      exact ⟨hc, by omega, by omega⟩
  | succ n2 ih =>
      intro st s hm hc hsi hie
      rw [vpcLoop]
      by_cases h : st.i < e
      · rw [dif_pos h]
        dsimp only
        have hpair :
            ChainN s
                (if ((inputs st.i).all fun inp =>
                    match lookupA st.childMap (root inp) with
                    | none => true
                    | some v => decide (v = inp)) = true then st.acc
                  else st.acc ++ [(st.start, st.i)])
                (if ((inputs st.i).all fun inp =>
                    match lookupA st.childMap (root inp) with
                    | none => true
                    | some v => decide (v = inp)) = true then st.start
                  else st.i) ∧
              (if ((inputs st.i).all fun inp =>
                  match lookupA st.childMap (root inp) with
                  | none => true
                  | some v => decide (v = inp)) = true then st.start
                else st.i) ≤ st.i + 1 := by
          split_ifs with hcase
          · exact ⟨hc, by omega⟩
          · exact ⟨chainN_snoc hc hsi, by omega⟩
        refine ih _ s ?_ hpair.1 hpair.2 ?_
        · show e - (st.i + 1) ≤ n2
          omega
        · show st.i + 1 ≤ e
          omega
      · rw [dif_neg h]
        exact ⟨hc, by omega, by omega⟩

lemma avoFold_chain (R T : Nat → Bool) :
    ∀ (ivs : List (Nat × Nat)) (acc : List (Nat × Nat)) (s m nn : Nat),
      ChainN s acc m → ChainN m ivs nn →
      ChainN s (ivs.foldl (fun acc iv => avoLoop R T iv.2 iv.1 iv.1 acc) acc)
        nn := by
  intro ivs
  induction ivs with
  | nil =>
      intro acc s m nn hacc hivs
      rw [ChainN] at hivs
      subst hivs
      simpa using hacc
  | cons p rest ih =>
      intro acc s m nn hacc hivs
      obtain ⟨hp, hle, hr⟩ := hivs
      rw [List.foldl_cons]
      refine ih _ s p.2 nn ?_ hr
      exact avoLoop_chain R T p.2 (2 * (p.2 - p.1) + (p.1 - p.1)) p.1 p.1 acc s
        (Nat.le_refl _) (hp ▸ hacc) (Nat.le_refl _) (hp ▸ hle)

lemma ilsFold_chain (shapes : Nat → Option Nat) :
    ∀ (ivs : List (Nat × Nat)) (acc : List (Nat × Nat)) (s m nn : Nat),
      ChainN s acc m → ChainN m ivs nn →
      ChainN s
        (ivs.foldl (fun acc iv => ilsLoop shapes iv.2 iv.1 (iv.1 + 1) acc) acc)
        nn := by
  intro ivs
  induction ivs with
  | nil =>
      intro acc s m nn hacc hivs
      rw [ChainN] at hivs
      subst hivs
      simpa using hacc
  | cons p rest ih =>
      intro acc s m nn hacc hivs
      obtain ⟨hp, hle, hr⟩ := hivs
      rw [List.foldl_cons]
      refine ih _ s p.2 nn ?_ hr
      exact ilsLoop_chain shapes p.2 (p.2 - (p.1 + 1)) p.1 (p.1 + 1) acc s
        (Nat.le_refl _) (hp ▸ hacc) (hp ▸ hle) (Nat.lt_succ_self _)

lemma projFold_chain (cands : Nat → List (Nat × Option Nat)) :
    ∀ (ivs : List (Nat × Nat)) (st : ProjState) (s m nn : Nat),
      ChainN s st.acc m → ChainN m ivs nn →
      ChainN s
        ((ivs.foldl
            (fun st iv =>
              let st2 := projLoop cands iv.2 { st with start := iv.1, i := iv.1 }
              if st2.start < iv.2 then
                { st2 with acc := st2.acc ++ [(st2.start, iv.2)] }
              else st2)
            st).acc)
        nn := by
  intro ivs
  induction ivs with
  | nil =>
      intro st s m nn hacc hivs
      rw [ChainN] at hivs
      subst hivs
      simpa using hacc
  | cons p rest ih =>
      intro st s m nn hacc hivs
      obtain ⟨hp, hle, hr⟩ := hivs
      rw [List.foldl_cons]
      dsimp only
      have hloop := projLoop_chain cands p.2
        (p.2 - p.1) { st with start := p.1, i := p.1 } s
        (Nat.le_refl _) (hp ▸ hacc) (Nat.le_refl _) (hp ▸ hle)
      set st2 := projLoop cands p.2 { st with start := p.1, i := p.1 } with hst2
      by_cases hlt : st2.start < p.2
      · rw [if_pos hlt]
        refine ih { st2 with acc := st2.acc ++ [(st2.start, p.2)] } s p.2 nn
          ?_ hr
        exact chainN_snoc hloop.1 (Nat.le_of_lt hlt)
      · rw [if_neg hlt]
        refine ih st2 s p.2 nn ?_ hr
        have heq : st2.start = p.2 := by omega
        rw [← heq]
        exact hloop.1

lemma vpcFold_chain (inputs outputs : Nat → List Nat) (root : Nat → Nat) :
    ∀ (ivs : List (Nat × Nat)) (st : VpcState) (s m nn : Nat),
      ChainN s st.acc m → st.i = m → ChainN m ivs nn →
      ChainN s
        ((ivs.foldl
            (fun st iv =>
              let st2 := vpcLoop inputs outputs root iv.2 { st with start := iv.1 }
              if st2.start < iv.2 then
                { st2 with acc := st2.acc ++ [(st2.start, iv.2)] }
              else st2)
            st).acc)
        nn := by
  intro ivs
  induction ivs with
  | nil =>
      intro st s m nn hacc hi hivs
      rw [ChainN] at hivs
      subst hivs
      simpa using hacc
  | cons p rest ih =>
      intro st s m nn hacc hi hivs
      obtain ⟨hp, hle, hr⟩ := hivs
      rw [List.foldl_cons]
      dsimp only
      have hloop := vpcLoop_spec inputs outputs root p.2
        (p.2 - ({ st with start := p.1 } : VpcState).i)
        { st with start := p.1 } s (Nat.le_refl _)
        (by show ChainN s st.acc p.1; rw [hp]; exact hacc)
        (by show p.1 ≤ st.i; omega)
        (by show st.i ≤ p.2; omega)
      set st2 := vpcLoop inputs outputs root p.2 { st with start := p.1 }
        with hst2
      by_cases hlt : st2.start < p.2
      · rw [if_pos hlt]
        refine ih { st2 with acc := st2.acc ++ [(st2.start, p.2)] } s p.2 nn
          ?_ ?_ hr
        · exact chainN_snoc hloop.1 (Nat.le_of_lt hlt)
        · show st2.i = p.2
          exact hloop.2.2
      · rw [if_neg hlt]
        refine ih st2 s p.2 nn ?_ hloop.2.2 hr
        have heq : st2.start = p.2 := by omega
        rw [← heq]
        exact hloop.1

lemma chainZ_append {l1 : List (Int × Int)} :
    ∀ {s m e : Int} {l2 : List (Int × Int)},
      ChainZ s l1 m → ChainZ m l2 e → ChainZ s (l1 ++ l2) e := by
  induction l1 with
  | nil =>
      intro s m e l2 h1 h2
      rw [ChainZ] at h1
      subst h1
      simpa using h2
  | cons p rest ih =>
      intro s m e l2 h1 h2
      obtain ⟨hp, hle, hr⟩ := h1
      exact ⟨hp, hle, ih hr h2⟩

lemma chainZ_of_chainN :
    ∀ {l : List (Nat × Nat)} {s e : Nat},
      ChainN s l e →
      ChainZ (s : Int) (l.map fun p => ((p.1 : Int), (p.2 : Int))) (e : Int) := by
  intro l
  induction l with
  | nil =>
      intro s e h
      rw [ChainN] at h
      subst h
      rw [List.map_nil, ChainZ]
  | cons p rest ih =>
      intro s e h
      obtain ⟨hp, hle, hr⟩ := h
      rw [List.map_cons]
      refine ⟨?_, ?_, ih hr⟩
      · show ((p.1 : Int)) = (s : Int)
        exact_mod_cast hp
      · show (s : Int) ≤ ((p.2 : Int))
        exact_mod_cast hle

lemma intRange_expand_chain_aux :
    ∀ (k : Nat) (a : Int),
      ChainZ a (((List.range k).map fun (j : Nat) => (a + j : Int)).map
        fun i => (i, i + 1)) (a + (k : Int)) := by
  intro k
  induction k with
  | zero =>
      intro a
      show ChainZ a [] (a + ((0 : Nat) : Int))
      rw [ChainZ]
      simp
  | succ k2 ih =>
      intro a
      rw [List.range_succ, List.map_append, List.map_append]
      refine chainZ_append (ih a) ?_
      rw [List.map_singleton, List.map_singleton]
      refine ⟨rfl, by omega, ?_⟩
      show (a + k2 : Int) + 1 = a + ((k2 + 1 : Nat) : Int)
      push_cast
      ring

lemma intRange_eq_map (a b : Int) :
    intRange a b = (List.range (b - a).toNat).map fun (j : Nat) => (a + j : Int) := by
  rw [intRange]
  induction (b - a).toNat with
  | zero => simp
  | succ n ih => simp_all [List.range_succ]

lemma intRange_expand_chain {a b : Int} (h : a ≤ b) :
    ChainZ a ((intRange a b).map fun i => (i, i + 1)) b := by
  have haux := intRange_expand_chain_aux (b - a).toNat a
  have he : a + (((b - a).toNat : Nat) : Int) = b := by omega
  rw [he] at haux
  rw [intRange_eq_map]
  exact haux

lemma expandSmall_chain (t : Int) (p : Int × Int) (h : p.1 ≤ p.2) :
    ChainZ p.1 (expandSmall t p) p.2 := by
  rw [expandSmall]
  split
  · exact ⟨rfl, h, rfl⟩
  · exact intRange_expand_chain h

lemma chainZ_flatMap (t : Int) :
    ∀ {l : List (Int × Int)} {s e : Int},
      ChainZ s l e → ChainZ s (l.flatMap (expandSmall t)) e := by
  intro l
  induction l with
  | nil => intro s e h; simpa using h
  | cons p rest ih =>
      intro s e h
      obtain ⟨hp, hle, hr⟩ := h
      rw [List.flatMap_cons]
      refine chainZ_append ?_ (ih hr)
      have hpe : ChainZ p.1 (expandSmall t p) p.2 :=
        expandSmall_chain t p (by omega)
      rw [hp] at hpe
      exact hpe

lemma chainZ_le : ∀ {l : List (Int × Int)} {s e : Int}, ChainZ s l e → s ≤ e := by
  intro l
  induction l with
  | nil =>
      intro s e h
      rw [ChainZ] at h
      omega
  | cons q rest ih =>
      intro s e h
      obtain ⟨hq, hle, hr⟩ := h
      have := ih hr
      omega

lemma chainZ_mem_bounds :
    ∀ {l : List (Int × Int)} {s e : Int}, ChainZ s l e →
      ∀ p ∈ l, s ≤ p.1 ∧ p.1 ≤ p.2 ∧ p.2 ≤ e := by
  intro l
  induction l with
  | nil => intro s e _ p hp; exact absurd hp (List.not_mem_nil p)
  | cons q rest ih =>
      intro s e h p hp
      obtain ⟨hq, hle, hr⟩ := h
      rw [List.mem_cons] at hp
      cases hp with
      | inl hpq =>
          subst hpq
          exact ⟨by omega, by omega, chainZ_le hr⟩
      | inr hpr =>
          have hb := ih hr p hpr
          exact ⟨by omega, hb.2.1, hb.2.2⟩

lemma chainZ_pairwise :
    ∀ {l : List (Int × Int)} {s e : Int}, ChainZ s l e →
      l.Pairwise (fun p q => p.2 ≤ q.1) := by
  intro l
  induction l with
  | nil => intro s e _; exact List.Pairwise.nil
  | cons q rest ih =>
      intro s e h
      obtain ⟨hq, hle, hr⟩ := h
      refine List.Pairwise.cons ?_ (ih hr)
      intro p hp
      exact (chainZ_mem_bounds hr p hp).1

lemma chainZ_cover :
    ∀ {l : List (Int × Int)} {s e : Int}, ChainZ s l e →
      ∀ k : Int, (∃ p ∈ l, p.1 ≤ k ∧ k < p.2) ↔ (s ≤ k ∧ k < e) := by
  intro l
  induction l with
  | nil =>
      intro s e h k
      rw [ChainZ] at h
      subst h
      constructor
      · rintro ⟨p, hp, _⟩
        exact absurd hp (List.not_mem_nil p)
      · rintro ⟨h1, h2⟩
        exact absurd (lt_of_le_of_lt h1 h2) (lt_irrefl s)
  | cons q rest ih =>
      intro s e h k
      obtain ⟨hq, hle, hr⟩ := h
      have hih := ih hr k
      have hre : q.2 ≤ e := chainZ_le hr
      constructor
      · rintro ⟨p, hp, hk1, hk2⟩
        rw [List.mem_cons] at hp
        cases hp with
        | inl hpq =>
            subst hpq
            exact ⟨by omega, by omega⟩
        | inr hpr =>
            have hb := hih.mp ⟨p, hpr, hk1, hk2⟩
            exact ⟨by omega, hb.2⟩
      · rintro ⟨h1, h2⟩
        by_cases hk : k < q.2
        · exact ⟨q, List.mem_cons_self q rest, by omega, hk⟩
        · obtain ⟨p, hp, hc⟩ := hih.mpr ⟨by omega, h2⟩
          exact ⟨p, List.mem_cons_of_mem q hp, hc⟩

lemma canFuseIntervals_chain (taskId : Nat → Nat) (shapes : Nat → Option Nat)
    (cands : Nat → List (Nat × Option Nat)) (inputs outputs : Nat → List Nat)
    (root : Nat → Nat) (n : Nat) :
    ChainZ 0 (canFuseIntervals taskId shapes cands inputs outputs root n)
      (n : Int) := by
  have h1 : ChainN 0 (allValidOpsApply taskId [(0, n)]) n :=
    avoFold_chain _ _ [(0, n)] [] 0 0 n rfl ⟨rfl, Nat.zero_le n, rfl⟩
  have h2 : ChainN 0
      (identicalLaunchShapesApply shapes (allValidOpsApply taskId [(0, n)])) n :=
    ilsFold_chain shapes _ [] 0 0 n rfl h1
  have h3 : ChainN 0
      (identicalProjectionApply cands
        (identicalLaunchShapesApply shapes (allValidOpsApply taskId [(0, n)])))
      n :=
    projFold_chain cands _ ⟨[], 0, 0, []⟩ 0 0 n rfl h2
  have h4 : ChainN 0
      (validProducerConsumerApply inputs outputs root
        (identicalProjectionApply cands
          (identicalLaunchShapesApply shapes
            (allValidOpsApply taskId [(0, n)]))))
      n :=
    vpcFold_chain inputs outputs root _ ⟨[], 0, 0, []⟩ 0 0 n rfl rfl h3
  have hz := chainZ_of_chainN h4
  rw [Nat.cast_zero] at hz
  show ChainZ 0
    ((supress_small_fusions
      ((validProducerConsumerApply inputs outputs root
        (identicalProjectionApply cands
          (identicalLaunchShapesApply shapes
            (allValidOpsApply taskId [(0, n)])))).map
        fun p => ((p.1 : Int), (p.2 : Int))) 2).2)
    (n : Int)
  rw [supress_small_fusions_spec]
  exact chainZ_flatMap 2 hz

/-- C3: for every window, the interval list produced by
`FusionChecker.can_fuse` after the registered constraint chain and
`supress_small_fusions` is a partition of `[0, len(ops))` into ordered,
pairwise non-overlapping half-open intervals whose union is exactly
`[0, len(ops))`. -/
theorem C3_can_fuse_partition (taskId : Nat → Nat) (shapes : Nat → Option Nat)
    (cands : Nat → List (Nat × Option Nat)) (inputs outputs : Nat → List Nat)
    (root : Nat → Nat) (n : Nat) :
    (canFuseIntervals taskId shapes cands inputs outputs root n).Pairwise
        (fun p q => p.2 ≤ q.1) ∧
      (∀ p ∈ canFuseIntervals taskId shapes cands inputs outputs root n,
        p.1 ≤ p.2) ∧
      ∀ k : Int,
        (∃ p ∈ canFuseIntervals taskId shapes cands inputs outputs root n,
          p.1 ≤ k ∧ k < p.2) ↔ 0 ≤ k ∧ k < (n : Int) := by
  have hchain := canFuseIntervals_chain taskId shapes cands inputs outputs root n
  exact ⟨chainZ_pairwise hchain,
    fun p hp => (chainZ_mem_bounds hchain p hp).2.1,
    chainZ_cover hchain⟩
